import Mathlib

/-!
# Verification of the `laun` loop orchestrator

A shallow embedding of the core of the `laun` repository (files `src/prd.rs`
and `src/runner.rs`) together with proofs about its behaviour.

Strings are modelled as `List Char`.  External effects (agent processes,
shell commands, the checklist file) are modelled by positional oracles held
in the run state, and every externally visible action is recorded in an
event trace.  The two standard-library functions whose definitions live
outside this repository — `serde_json::from_str::<LoopDecision>` and
`str::to_lowercase` (the full Unicode case mapping) — are abstract
parameters (`jd` and `lc` below); every theorem about them is universally
quantified, so it holds in particular at the real library functions.
-/

namespace Laun

/-- Strings are modelled as lists of characters. -/
abbrev Str := List Char

/-- The characters with the Unicode `White_Space` property, as recognised by
Rust's `char::is_whitespace`. -/
def rustIsWhitespace (c : Char) : Bool :=
  c = ' ' || c = '\t' || c = '\n' || c = Char.ofNat 0x0b || c = Char.ofNat 0x0c ||
  c = '\r' || c = Char.ofNat 0x85 || c = Char.ofNat 0xa0 || c.val = 0x1680 ||
  (0x2000 ≤ c.val && c.val ≤ 0x200a) ||
  c.val = 0x2028 || c.val = 0x2029 || c.val = 0x202f || c.val = 0x205f || c.val = 0x3000

/-- Rust `str::trim_start`. -/
def trimStartL (s : Str) : Str := s.dropWhile rustIsWhitespace

/-- Rust `str::trim_end`. -/
def trimEndL (s : Str) : Str := (s.reverse.dropWhile rustIsWhitespace).reverse

/-- Rust `str::trim`. -/
def trimL (s : Str) : Str := trimEndL (trimStartL s)

/-- Rust `str::to_lowercase` performs the full Unicode lowercase mapping
(with multi-character expansions and the final-sigma rule); its definition
lives in the Rust standard library, outside this repository.  The
development is therefore parametric over it: every definition and theorem
that lowercases takes an abstract parameter `lc : Str → Str` standing for
`str::to_lowercase`, exactly as the decision-parsing development is
parametric over the `serde_json` deserialiser `jd`.  On a string made of
ASCII characters only, `str::to_lowercase` maps each character through the
ASCII case table; `asciiLower` is that restriction, used solely to
instantiate the parametric theorems on concrete all-ASCII examples. -/
def asciiLower (s : Str) : Str := s.map Char.toLower

/-- `normalize` from `src/prd.rs`: trim, then lowercase (`lc` stands for
`str::to_lowercase`). -/
def normalize (lc : Str → Str) (s : Str) : Str := lc (trimL s)

/-- Strip a trailing carriage return, as Rust's `str::lines` does for each
`'\n'`-terminated chunk. -/
def stripTrailCR (l : Str) : Str :=
  match l.getLast? with
  | some c => if c = '\r' then l.dropLast else l
  | none => l

/-- Worker for `rustLines`: `cur` is the reversed current chunk. -/
def linesGo (cur : Str) : Str → List Str
  | [] => if cur.isEmpty then [] else [cur.reverse]
  | c :: rest =>
    if c = '\n' then stripTrailCR cur.reverse :: linesGo [] rest
    else linesGo (c :: cur) rest

/-- Rust `str::lines`: split at `'\n'`, stripping a `'\r'` that immediately
precedes a `'\n'`; a final line terminator produces no trailing empty line. -/
def rustLines (s : Str) : List Str := linesGo [] s

/-- Rust `str::strip_prefix` by literal: `some rest` iff `pat` heads `s`. -/
def stripLit : Str → Str → Option Str
  | [], s => some s
  | _ :: _, [] => none
  | p :: ps, c :: cs => if p = c then stripLit ps cs else none

/-- Rust `str::contains` with a literal needle (substring search). -/
def containsSub (hay needle : Str) : Bool :=
  if (stripLit needle hay).isSome then true
  else
    match hay with
    | [] => false
    | _ :: rest => containsSub rest needle

/-- The unchecked checklist item marker. -/
def uncheckedMark : Str := "- [ ] ".data

/-- The checked checklist item marker. -/
def checkedMark : Str := "- [x] ".data

/-- The upper-case checked checklist item marker. -/
def checkedMarkUpper : Str := "- [X] ".data

/-- One checklist item (`PrdItem` in `src/prd.rs`). -/
structure PrdItem where
  text : Str
  checked : Bool
deriving Repr, DecidableEq

/-- Parse one line into a checklist item, if it is one
(`PrdDocument::parse`, per-line logic). -/
def parseLine (line : Str) : Option PrdItem :=
  let trimmed := trimStartL line
  match stripLit uncheckedMark trimmed with
  | some text => some ⟨trimL text, false⟩
  | none =>
    match stripLit checkedMark trimmed with
    | some text => some ⟨trimL text, true⟩
    | none =>
      match stripLit checkedMarkUpper trimmed with
      | some text => some ⟨trimL text, true⟩
      | none => none

/-- `PrdDocument::parse` from `src/prd.rs`. -/
def parsePrd (input : Str) : List PrdItem :=
  (rustLines input).filterMap parseLine

/-- `PrdDocument::unchecked_items`. -/
def uncheckedItems (items : List PrdItem) : List PrdItem :=
  items.filter fun it => !it.checked

/-- One line of `mark_item_done`'s scan (`src/prd.rs` lines 64-73): if the
line is an unchecked item whose normalized text equals or contains the
normalized target, the rewritten (checked) line, else `none`. -/
def checkLine (lc : Str → Str) (targetNorm : Str) (line : Str) : Option Str :=
  let trimmed := trimStartL line
  match stripLit uncheckedMark trimmed with
  | none => none
  | some text =>
    let textNorm := normalize lc text
    if (textNorm == targetNorm) || containsSub textNorm targetNorm then
      some (line.take (line.length - trimmed.length) ++ checkedMark ++ trimL text)
    else none

/-- Rewrite the first line accepted by `checkLine`, leaving all other lines
unchanged; `none` iff no line matches. -/
def markLines (lc : Str → Str) (targetNorm : Str) : List Str → Option (List Str)
  | [] => none
  | line :: rest =>
    match checkLine lc targetNorm line with
    | some newLine => some (newLine :: rest)
    | none => (markLines lc targetNorm rest).map fun ls => line :: ls

/-- Does the text end with a newline (`str::ends_with('\n')`)? -/
def endsWithNl (s : Str) : Bool := s.getLast? == some '\n'

/-- Reassemble the rewritten file contents (`src/prd.rs` lines 79-83). -/
def rebuild (hadNl : Bool) (ls : List Str) : Str :=
  let out := List.intercalate ['\n'] ls
  if hadNl then out ++ ['\n'] else out

/-- `mark_item_done` from `src/prd.rs`, as a pure function on file contents:
`some out` means the file is rewritten to `out` and `true` is returned;
`none` means no line matched, the file is untouched and `false` is returned
(`lc` stands for `str::to_lowercase`). -/
def markItemDone (lc : Str → Str) (contents target : Str) : Option Str :=
  (markLines lc (normalize lc target) (rustLines contents)).map fun ls =>
    rebuild (endsWithNl contents) ls

/-! ## Decision protocol (`src/runner.rs` lines 32-46 and 209-236) -/

/-- `LoopAction` from `src/runner.rs`. -/
inductive LoopAction where
  | delegate
  | done
deriving Repr, DecidableEq

/-- `LoopDecision` from `src/runner.rs`. -/
structure LoopDecision where
  action : LoopAction
  targetItem : Option Str
  workerPrompt : Option Str
  commitMessage : Option Str
  reason : Option Str
deriving Repr, DecidableEq

/-- The opening brace character. -/
def lbrace : Char := Char.ofNat 123

/-- The closing brace character. -/
def rbrace : Char := Char.ofNat 125

/-- Index of the first occurrence of `c` (Rust `str::find`). -/
def firstIdxCh (c : Char) : Str → Option Nat
  | [] => none
  | a :: rest => if a = c then some 0 else (firstIdxCh c rest).map fun i => i + 1

/-- Index of the last occurrence of `c` (Rust `str::rfind`). -/
def lastIdxCh (c : Char) (s : Str) : Option Nat :=
  (firstIdxCh c s.reverse).map fun i => s.length - 1 - i

/-- `extract_json_object` from `src/runner.rs`: the inclusive slice from the
first opening brace to the last closing brace, unless the latter does not
come strictly after the former. -/
def extractJsonObject (raw : Str) : Option Str :=
  match firstIdxCh lbrace raw with
  | none => none
  | some start =>
    match lastIdxCh rbrace raw with
    | none => none
    | some e =>
      if e ≤ start then none
      else some ((raw.drop start).take (e - start + 1))

/-- The fallback decision synthesized from unparseable planner output
(`src/runner.rs` lines 220-226). -/
def fallbackDecision (raw : Str) : LoopDecision :=
  ⟨.delegate, none, some (trimL raw), none, none⟩

/-- `parse_loop_decision` from `src/runner.rs`, parameterised by the abstract
JSON deserialiser `jd` (modelling `serde_json::from_str::<LoopDecision>`). -/
def parseLoopDecision (jd : Str → Option LoopDecision) (raw : Str) : LoopDecision :=
  match jd raw with
  | some d => d
  | none =>
    match (extractJsonObject raw).bind jd with
    | some d => d
    | none => fallbackDecision raw

/-! ## Byte-level `truncate` (`src/runner.rs` lines 443-448) -/

/-- UTF-8 byte length of a string (Rust `str::len`). -/
def byteLen (s : Str) : Nat := (s.map Char.utf8Size).sum

/-- The byte slice `input[..max]` of a UTF-8 string: `none` models the Rust
panic raised when `max` is not a character boundary (or exceeds the length). -/
def takeBytes : Str → Nat → Option Str
  | _, 0 => some []
  | [], _ + 1 => none
  | c :: cs, m + 1 =>
    if c.utf8Size ≤ m + 1 then
      (takeBytes cs (m + 1 - c.utf8Size)).map fun r => c :: r
    else none

/-- `truncate` from `src/runner.rs`: identity when the byte length is within
`max`, otherwise the byte slice `input[..max]` followed by `"..."`; the
slice panics (`none`) when `max` falls inside a multi-byte character. -/
def truncateR (input : Str) (max : Nat) : Option Str :=
  if byteLen input ≤ max then some input
  else (takeBytes input max).map fun t => t ++ "...".data

/-! ## Shell and version control (`src/runner.rs` lines 398-430, 450-452) -/

/-- Raw outcome of spawning one shell command: `none` is a spawn failure,
otherwise the exit-status success flag with captured stdout and stderr. -/
abbrev ShellOut := Option (Bool × Str × Str)

/-- `ShellRun` from `src/runner.rs`. -/
structure ShellRun where
  success : Bool
  output : Str
deriving Repr, DecidableEq

/-- The pure part of `run_shell`: merge the captured streams and trim. -/
def runShellPure (o : ShellOut) : Option ShellRun :=
  o.map fun r => ⟨r.1, trimL (r.2.1 ++ r.2.2)⟩

/-- Externally visible actions of one run. -/
inductive AgentRole where
  | planner
  | implementer
deriving Repr, DecidableEq

/-- One externally visible action: an agent process invocation, a shell
command execution, or a rewrite of the checklist file. -/
inductive Event where
  | agentInvoke (role : AgentRole) (prompt : Str)
  | shellRun (cmd : Str)
  | prdWrite (contents : Str)
deriving Repr, DecidableEq

/-- `run_shell` over the positional oracle: consumes one oracle entry;
a missing or `none` entry is a spawn failure (the `?` aborts). -/
def runShell1 (cmd : Str) (sh : List ShellOut) :
    List Event × List ShellOut × Option ShellRun :=
  match sh with
  | [] => ([], [], none)
  | o :: rest =>
    match runShellPure o with
    | none => ([], rest, none)
    | some r => ([Event.shellRun cmd], rest, some r)

/-- The quote character. -/
def squote : Char := Char.ofNat 39

/-- `shell_quote` from `src/runner.rs`: wrap in single quotes, escaping each
embedded single quote. -/
def shellQuote (input : Str) : Str :=
  squote :: (input.flatMap fun c =>
    if c = squote then [squote, '\\', squote, squote] else [c]) ++ [squote]

/-- The `git status --porcelain` command line. -/
def gitStatusCmd : Str := "git status --porcelain".data

/-- The `git add -A` command line. -/
def gitAddCmd : Str := "git add -A".data

/-- The `git commit -m <quoted message>` command line. -/
def gitCommitCmd (msg : Str) : Str := "git commit -m ".data ++ shellQuote msg

/-- The `git rev-parse --short HEAD` command line. -/
def gitRevParseCmd : Str := "git rev-parse --short HEAD".data

/-- `has_uncommitted_changes` from `src/runner.rs`: spawn `git status`
(aborting on spawn failure, its exit status is never consulted) and report
whether the trimmed output is non-empty. -/
def hasUncommittedChanges (sh : List ShellOut) :
    List Event × List ShellOut × Option Bool :=
  match runShell1 gitStatusCmd sh with
  | (evs, sh', none) => (evs, sh', none)
  | (evs, sh', some r) => (evs, sh', some (!(trimL r.output).isEmpty))

/-- `commit_all` from `src/runner.rs`: run stage-all, commit, and short-hash
retrieval in order; each `?` aborts only on a spawn failure, the exit status
of every command is ignored, and the trimmed rev-parse output is returned. -/
def commitAll (msg : Str) (sh : List ShellOut) :
    List Event × List ShellOut × Option Str :=
  match runShell1 gitAddCmd sh with
  | (e1, sh1, none) => (e1, sh1, none)
  | (e1, sh1, some _) =>
    match runShell1 (gitCommitCmd msg) sh1 with
    | (e2, sh2, none) => (e1 ++ e2, sh2, none)
    | (e2, sh2, some _) =>
      match runShell1 gitRevParseCmd sh2 with
      | (e3, sh3, none) => (e1 ++ e2 ++ e3, sh3, none)
      | (e3, sh3, some h) => (e1 ++ e2 ++ e3, sh3, some (trimL h.output))

/-! ## Test suite (`src/runner.rs` lines 361-396) -/

/-- `TestRun` from `src/runner.rs`. -/
structure TestRun where
  success : Bool
  output : Str
deriving Repr, DecidableEq

/-- The `"$ {cmd}\n{output}\n"` block appended per executed test command. -/
def cmdLabel (cmd out : Str) : Str :=
  "$ ".data ++ cmd ++ "\n".data ++ out ++ "\n".data

/-- The accumulated `"[dry-run] {cmd}\n"` lines of a dry-run test suite. -/
def dryOutputs (cmds : List Str) : Str :=
  (cmds.map fun c => "[dry-run] ".data ++ c ++ "\n".data).flatten

/-- Worker for `run_test_suite` in the non-dry case: run the commands in
order with accumulated output `acc`, stopping at the first non-zero exit
(result `success = false`) and aborting on the first spawn failure. -/
def runTestsGo : List Str → List ShellOut → Str →
    List Event × List ShellOut × Option TestRun
  | [], sh, acc => ([], sh, some ⟨true, acc⟩)
  | cmd :: rest, sh, acc =>
    match sh with
    | [] => ([], [], none)
    | o :: sh' =>
      match runShellPure o with
      | none => ([], sh', none)
      | some r =>
        let acc' := acc ++ cmdLabel cmd r.output
        if r.success then
          match runTestsGo rest sh' acc' with
          | (evs, sh'', res) => (Event.shellRun cmd :: evs, sh'', res)
        else ([Event.shellRun cmd], sh', some ⟨false, acc'⟩)

/-- `run_test_suite` from `src/runner.rs`: an empty command list is an
immediate success with a placeholder message; in a dry run every command is
recorded as skipped and nothing is executed; otherwise the commands run in
order via `runTestsGo`. -/
def runTestSuite (cmds : List Str) (dry : Bool) (sh : List ShellOut) :
    List Event × List ShellOut × Option TestRun :=
  if cmds.isEmpty then ([], sh, some ⟨true, "No tests configured.".data⟩)
  else if dry then ([], sh, some ⟨true, dryOutputs cmds⟩)
  else runTestsGo cmds sh []

/-! ## Configuration (`src/config.rs`) and prompts (`src/runner.rs` 238-359) -/

/-- The fields of `AgentConfig` consulted by prompt construction. -/
structure AgentCfg where
  visibleFiles : List Str
  visibleTests : List Str
  systemPrompt : Str
deriving Repr, DecidableEq

/-- `WorkflowConfig` from `src/config.rs`. -/
structure Workflow where
  maxIterations : Nat
  maxFixAttempts : Nat
  autoCommit : Bool
  executionTests : List Str
deriving Repr, DecidableEq

/-- The fields of `AppConfig` consulted by the loop (`prdFile` stands for the
displayed PRD path). -/
structure Config where
  prdFile : Str
  autoMarkCompleted : Bool
  workflow : Workflow
  loopAgent : AgentCfg
  workerAgent : AgentCfg
deriving Repr, DecidableEq

/-- `RunOptions` from `src/runner.rs`. -/
structure RunOptions where
  maxIterationsOverride : Option Nat
  dryRun : Bool
deriving Repr, DecidableEq

/-- `RunSummary` from `src/runner.rs`. -/
structure RunSummary where
  iterations : Nat
  completedItems : Nat
  commits : Nat
deriving Repr, DecidableEq

/-- `format_lines` from `src/runner.rs`. -/
def formatLines (lines : List Str) : Str :=
  if lines.isEmpty then "(none)".data
  else List.intercalate "\n".data (lines.map fun l => "- ".data ++ l)

/-- The `"- {text}"` join used for completed/remaining item lists in the
planner prompt. -/
def joinDashed (items : List Str) : Str :=
  List.intercalate "\n".data (items.map fun t => "- ".data ++ t)

/-- `build_loop_prompt` from `src/runner.rs`. -/
def buildLoopPrompt (cfg : Config) (prd : List PrdItem) (loopContext : Str)
    (executionTests : List Str) : Str :=
  let remaining := joinDashed ((uncheckedItems prd).map fun i => i.text)
  let completed := joinDashed ((prd.filter fun i => i.checked).map fun i => i.text)
  cfg.loopAgent.systemPrompt
  ++ "\n\nRole: Loop manager (fast model). Decide the next task for the implementation agent.\nPRD file: ".data
  ++ cfg.prdFile
  ++ "\n\nVisible files for you:\n".data ++ formatLines cfg.loopAgent.visibleFiles
  ++ "\n\nVisible tests for you:\n".data ++ formatLines cfg.loopAgent.visibleTests
  ++ "\n\nExecution tests run by orchestrator:\n".data ++ formatLines executionTests
  ++ "\n\nCompleted PRD items:\n".data
  ++ (if completed.isEmpty then "(none)".data else completed)
  ++ "\n\nRemaining PRD items:\n".data ++ remaining
  ++ "\n\nPrior orchestration context:\n".data
  ++ (if loopContext.isEmpty then "(none)".data else loopContext)
  ++ "\n\nRespond with JSON only:\n\x7b\n  \"action\": \"delegate\" | \"done\",\n  \"target_item\": \"exact PRD item text to execute\",\n  \"worker_prompt\": \"concrete implementation instructions\",\n  \"commit_message\": \"optional commit message\",\n  \"reason\": \"optional short rationale\"\n\x7d\n".data

/-- The optional failure block of the worker prompt: empty when there is no
failure output, otherwise a header plus the output truncated to 3000 bytes
(whose truncation may panic, modelled as `none`). -/
def failureBlock (failureOutput : Option Str) : Option Str :=
  match failureOutput with
  | none => some []
  | some output =>
    (truncateR output 3000).map fun t =>
      "Previous test failures to fix first:\n".data ++ t ++ "\n".data

/-- `build_worker_prompt` from `src/runner.rs`. -/
def buildWorkerPrompt (worker : AgentCfg) (targetItem workerTask : Str)
    (failureOutput : Option Str) (executionTests : List Str) : Option Str :=
  (failureBlock failureOutput).map fun fb =>
    worker.systemPrompt
    ++ "\n\nRole: Implementation agent (slower, stronger model).\nCurrent PRD item:\n".data
    ++ targetItem
    ++ "\n\nTask:\n".data ++ workerTask
    ++ "\n\nYou may focus on these files:\n".data ++ formatLines worker.visibleFiles
    ++ "\n\nYou should internally validate against these tests:\n".data
    ++ formatLines worker.visibleTests
    ++ "\n\nThe orchestrator will run this test suite after your turn:\n".data
    ++ formatLines executionTests
    ++ "\n\n".data ++ fb
    ++ "\nKeep output concise. Include:\n1) What changed\n2) What remains risky\n3) Suggested commit message\n".data

/-! ## The loop state machine (`LoopRunner::run`, `src/runner.rs` 56-202) -/

/-- The mutable state of one run: the checklist file contents plus the
positional oracles for the planner agent, the implementer agent and the
shell (`none` entries are invocation/spawn failures), the summary being
accumulated, and the free-text loop context. -/
structure RunState where
  prd : Str
  loopOuts : List (Option Str)
  workerOuts : List (Option Str)
  shellOuts : List ShellOut
  summary : RunSummary
  loopContext : Str
deriving Repr, DecidableEq

/-- Invoke one agent: consumes one oracle entry; a missing or `none` entry
is an invocation failure (spawn failure or non-zero exit, which
`CliAgent::invoke` turns into an error), otherwise the trimmed stdout. -/
def invokeAgent (role : AgentRole) (prompt : Str) (outs : List (Option Str)) :
    List Event × List (Option Str) × Option Str :=
  match outs with
  | [] => ([], [], none)
  | none :: rest => ([], rest, none)
  | some s :: rest => ([Event.agentInvoke role prompt], rest, some s)

/-- Result of one iteration of the `for` loop: continue, break, or abort the
whole run with an error (or a panic). -/
inductive StepRes where
  | next (s : RunState)
  | halt (s : RunState)
  | fail (s : RunState)
deriving Repr, DecidableEq

/-- The synthetic decision used in dry runs (`src/runner.rs` 89-95). -/
def dryRunDecision (firstUnchecked : Str) : LoopDecision :=
  ⟨.delegate, some firstUnchecked,
    some ("Implement PRD item: ".data ++ firstUnchecked), none,
    some "dry-run synthetic decision".data⟩

/-- The default worker task synthesized when the decision has no
`worker_prompt` (`src/runner.rs` 116-120). -/
def defaultWorkerTask (targetItem : Str) : Str :=
  "Implement PRD item: ".data ++ targetItem
  ++ ". Keep changes scoped and verify with tests.".data

/-- The fix-attempt loop (`src/runner.rs` 145-162): up to `attempts` retries,
each rebuilding the worker prompt with the prior failure output, re-invoking
the implementer and re-running the tests, stopping early on success. -/
def fixAttempts (cfg : Config) (targetItem workerTask : Str) (tr : TestRun)
    (attempts : Nat) (workerOuts : List (Option Str)) (shellOuts : List ShellOut) :
    List Event × List (Option Str) × List ShellOut × Option TestRun :=
  match attempts with
  | 0 => ([], workerOuts, shellOuts, some tr)
  | n + 1 =>
    match buildWorkerPrompt cfg.workerAgent targetItem workerTask (some tr.output)
        cfg.workflow.executionTests with
    | none => ([], workerOuts, shellOuts, none)
    | some fixPrompt =>
      match invokeAgent .implementer fixPrompt workerOuts with
      | (e1, w1, none) => (e1, w1, shellOuts, none)
      | (e1, w1, some _) =>
        match runTestSuite cfg.workflow.executionTests false shellOuts with
        | (e2, sh1, none) => (e1 ++ e2, w1, sh1, none)
        | (e2, sh1, some tr') =>
          if tr'.success then (e1 ++ e2, w1, sh1, some tr')
          else
            match fixAttempts cfg targetItem workerTask tr' n w1 sh1 with
            | (e3, w2, sh2, res) => (e1 ++ e2 ++ e3, w2, sh2, res)

/-- The auto-commit phase (`src/runner.rs` 175-182): when enabled and not a
dry run, check for uncommitted changes and commit; the outer `none` is an
abort (git spawn failure), the inner option is the commit hash. -/
def commitPhase (cfg : Config) (opts : RunOptions) (decision : LoopDecision)
    (targetItem : Str) (sh : List ShellOut) :
    List Event × List ShellOut × Option (Option Str) :=
  if cfg.workflow.autoCommit && !opts.dryRun then
    match hasUncommittedChanges sh with
    | (e, sh', none) => (e, sh', none)
    | (e, sh', some b) =>
      if b then
        let msg := decision.commitMessage.getD
          ("feat: complete PRD item: ".data ++ targetItem)
        match commitAll msg sh' with
        | (e2, sh2, none) => (e ++ e2, sh2, none)
        | (e2, sh2, some h) => (e ++ e2, sh2, some (some h))
      else (e, sh', some none)
  else ([], sh, some none)

/-- The auto-mark phase (`src/runner.rs` 184-191): when enabled and not a
dry run, mark the target item done, rewriting the checklist file. -/
def markPhase (lc : Str → Str) (cfg : Config) (opts : RunOptions)
    (targetItem : Str) (prd : Str) :
    List Event × Str × Bool :=
  if cfg.autoMarkCompleted && !opts.dryRun then
    match markItemDone lc prd targetItem with
    | some newPrd => ([Event.prdWrite newPrd], newPrd, true)
    | none => ([], prd, false)
  else ([], prd, false)

/-- The tail of a successful iteration (`src/runner.rs` 175-198): optional
commit, optional mark-done, new loop context, iteration count set. -/
def successTail (lc : Str → Str) (cfg : Config) (opts : RunOptions) (step : Nat)
    (decision : LoopDecision) (targetItem : Str) (s : RunState) :
    List Event × StepRes :=
  match commitPhase cfg opts decision targetItem s.shellOuts with
  | (e1, sh', none) => (e1, .fail {s with shellOuts := sh'})
  | (e1, sh', some commitHash) =>
    let commits' := s.summary.commits + (if commitHash.isSome then 1 else 0)
    let p := markPhase lc cfg opts targetItem s.prd
    let completed' := s.summary.completedItems + (if p.2.2 then 1 else 0)
    (e1 ++ p.1, .next {s with
      prd := p.2.1,
      shellOuts := sh',
      summary := ⟨step, completed', commits'⟩,
      loopContext := "Completed item `".data ++ targetItem ++ "`. Commit: ".data
        ++ commitHash.getD "none".data})

/-- Dispatch after the final test result (`src/runner.rs` 165-198): failing
tests hand the failure context to the next iteration; passing tests run the
success tail. -/
def afterTests (lc : Str → Str) (cfg : Config) (opts : RunOptions) (step : Nat)
    (decision : LoopDecision) (targetItem : Str) (tr : TestRun) (s : RunState) :
    List Event × StepRes :=
  if !tr.success then
    ([], .next {s with
      loopContext := "Previous attempt failed for item `".data ++ targetItem
        ++ "`.\nTest output:\n".data ++ tr.output,
      summary := {s.summary with iterations := step}})
  else successTail lc cfg opts step decision targetItem s

/-- Test execution and bounded retry (`src/runner.rs` 139-163). -/
def afterWorker (lc : Str → Str) (cfg : Config) (opts : RunOptions) (step : Nat)
    (decision : LoopDecision) (targetItem workerTask : Str) (s : RunState) :
    List Event × StepRes :=
  match runTestSuite cfg.workflow.executionTests opts.dryRun s.shellOuts with
  | (e1, sh1, none) => (e1, .fail {s with shellOuts := sh1})
  | (e1, sh1, some tr0) =>
    if !tr0.success && !opts.dryRun then
      match fixAttempts cfg targetItem workerTask tr0 cfg.workflow.maxFixAttempts
          s.workerOuts sh1 with
      | (e2, w2, sh2, none) =>
        (e1 ++ e2, .fail {s with workerOuts := w2, shellOuts := sh2})
      | (e2, w2, sh2, some tr) =>
        match afterTests lc cfg opts step decision targetItem tr
            {s with workerOuts := w2, shellOuts := sh2} with
        | (e3, res) => (e1 ++ e2 ++ e3, res)
    else
      match afterTests lc cfg opts step decision targetItem tr0
          {s with shellOuts := sh1} with
      | (e3, res) => (e1 ++ e3, res)

/-- The iteration body after the decision is available
(`src/runner.rs` 101-198). -/
def stepBody (lc : Str → Str) (cfg : Config) (opts : RunOptions) (step : Nat)
    (decision : LoopDecision) (firstUnchecked : Str) (s : RunState) :
    List Event × StepRes :=
  match decision.action with
  | .done => ([], .halt {s with summary := {s.summary with iterations := step}})
  | .delegate =>
    let targetItem := decision.targetItem.getD firstUnchecked
    let workerTask := decision.workerPrompt.getD (defaultWorkerTask targetItem)
    match buildWorkerPrompt cfg.workerAgent targetItem workerTask none
        cfg.workflow.executionTests with
    | none => ([], .fail s)
    | some workerPrompt =>
      if opts.dryRun then
        afterWorker lc cfg opts step decision targetItem workerTask s
      else
        match invokeAgent .implementer workerPrompt s.workerOuts with
        | (e, w', none) => (e, .fail {s with workerOuts := w'})
        | (e, w', some wout) =>
          match truncateR wout 240 with
          | none => (e, .fail {s with workerOuts := w'})
          | some _ =>
            match afterWorker lc cfg opts step decision targetItem workerTask
                {s with workerOuts := w'} with
            | (e2, res) => (e ++ e2, res)

/-- One iteration of the `for` loop (`src/runner.rs` 68-199): reload the
checklist, stop when nothing is unchecked, obtain the decision (synthetic in
dry runs, otherwise from the planner agent), then run the body. -/
def runStep (lc : Str → Str) (cfg : Config) (opts : RunOptions)
    (jd : Str → Option LoopDecision)
    (step : Nat) (s : RunState) : List Event × StepRes :=
  match uncheckedItems (parsePrd s.prd) with
  | [] => ([], .halt s)
  | first :: _ =>
    let decisionPrompt := buildLoopPrompt cfg (parsePrd s.prd) s.loopContext
      cfg.workflow.executionTests
    if opts.dryRun then
      match truncateR decisionPrompt 240 with
      | none => ([], .fail s)
      | some _ => stepBody lc cfg opts step (dryRunDecision first.text) first.text s
    else
      match invokeAgent .planner decisionPrompt s.loopOuts with
      | (e, l', none) => (e, .fail {s with loopOuts := l'})
      | (e, l', some out) =>
        match stepBody lc cfg opts step (parseLoopDecision jd out) first.text
            {s with loopOuts := l'} with
        | (e2, res) => (e ++ e2, res)

/-- The `for step in 1..=max_iterations` loop, by remaining fuel. -/
def runLoop (lc : Str → Str) (cfg : Config) (opts : RunOptions)
    (jd : Str → Option LoopDecision) :
    Nat → Nat → RunState → List Event × RunState × Option RunSummary
  | 0, _, s => ([], s, some s.summary)
  | n + 1, step, s =>
    match runStep lc cfg opts jd step s with
    | (e, .halt s') => (e, s', some s'.summary)
    | (e, .fail s') => (e, s', none)
    | (e, .next s') =>
      match runLoop lc cfg opts jd n (step + 1) s' with
      | (e2, s'', res) => (e ++ e2, s'', res)

/-- The effective iteration bound: the caller's override when present,
otherwise the configured maximum (`src/runner.rs` 61-63). -/
def effectiveMax (cfg : Config) (opts : RunOptions) : Nat :=
  opts.maxIterationsOverride.getD cfg.workflow.maxIterations

/-- `LoopRunner::run`: start with an empty summary and empty loop context and
iterate up to the effective bound; yields the event trace, the final state,
and the returned summary (`none` when the run aborted with an error). -/
def run (lc : Str → Str) (cfg : Config) (opts : RunOptions)
    (jd : Str → Option LoopDecision)
    (s : RunState) : List Event × RunState × Option RunSummary :=
  runLoop lc cfg opts jd (effectiveMax cfg opts) 1
    {s with summary := ⟨0, 0, 0⟩, loopContext := []}

/-! ## Helper lemmas about trimming -/

theorem dropWhile_idem (p : Char → Bool) (l : List Char) :
    List.dropWhile p (List.dropWhile p l) = List.dropWhile p l := by
  induction l with
  | nil => simp
  | cons c t ih =>
    by_cases h : p c
    · simp [List.dropWhile_cons, h, ih]
    · simp [List.dropWhile_cons, h]

theorem dropWhile_isSuffix (p : Char → Bool) (l : List Char) :
    ∃ u, u ++ List.dropWhile p l = l := by
  induction l with
  | nil => exact ⟨[], rfl⟩
  | cons c t ih =>
    by_cases h : p c
    · obtain ⟨u, hu⟩ := ih
      exact ⟨c :: u, by simp [List.dropWhile_cons, h, hu]⟩
    · exact ⟨[], by simp [List.dropWhile_cons, h]⟩

theorem trimEndL_isPre (y : Str) : ∃ u, trimEndL y ++ u = y := by
  obtain ⟨u, hu⟩ := dropWhile_isSuffix rustIsWhitespace y.reverse
  refine ⟨u.reverse, ?_⟩
  have := congrArg List.reverse hu
  simpa [trimEndL] using this

theorem trimStartL_idem (s : Str) : trimStartL (trimStartL s) = trimStartL s :=
  dropWhile_idem _ _

theorem trimEndL_idem (s : Str) : trimEndL (trimEndL s) = trimEndL s := by
  simp [trimEndL, dropWhile_idem]

theorem trimStartL_trimEndL (y : Str) (hy : trimStartL y = y) :
    trimStartL (trimEndL y) = trimEndL y := by
  obtain ⟨u, hu⟩ := trimEndL_isPre y
  cases hz : trimEndL y with
  | nil => simp [trimStartL]
  | cons a t =>
    rw [hz] at hu
    have hpa : ¬ rustIsWhitespace a := by
      have hy' : y = a :: (t ++ u) := by rw [← hu]; simp
      rw [hy'] at hy
      rw [trimStartL, List.dropWhile_eq_self_iff] at hy
      simpa using hy (by simp)
    simp [trimStartL, List.dropWhile_cons, hpa]

theorem trimL_idem (s : Str) : trimL (trimL s) = trimL s := by
  unfold trimL
  rw [trimStartL_trimEndL (trimStartL s) (trimStartL_idem s), trimEndL_idem]

/-! ## C1: version-control error handling -/

/-- C1 counterexample: with a shell oracle on which `git add -A` spawns but
exits non-zero (and `git commit` does too), `commit_all` does not abort: all
three git commands are executed and the short commit identifier (the trimmed
rev-parse output) is returned even though staging and committing failed.
This falsifies the claim that a non-zero git exit status aborts the run and
that `commitAll` returns an identifier only when staging and committing
succeeded. -/
theorem C1_cex_commitAll_ignores_exit_status :
    runShellPure (some (false, "err1".data, [])) = some ⟨false, "err1".data⟩ ∧
    commitAll "msg".data
        [some (false, "err1".data, []), some (false, "err2".data, []),
          some (true, "abc1234\n".data, [])]
      = ([Event.shellRun gitAddCmd, Event.shellRun (gitCommitCmd "msg".data),
          Event.shellRun gitRevParseCmd], [], some "abc1234".data) := by
  constructor
  · rfl
  · rfl

/-- C1 amended: only a *spawn* failure of a git command is fatal.  Whenever
all three git commands spawn, `commit_all` ignores their exit statuses and
returns the trimmed rev-parse output; `has_uncommitted_changes` likewise
aborts only on a spawn failure and never consults the exit status. -/
theorem C1_amended_spawn_failure_only :
    ∀ (msg : Str) (b1 b2 b3 : Bool) (o1 e1 o2 e2 o3 e3 : Str) (rest : List ShellOut),
      commitAll msg (none :: rest) = ([], rest, none) ∧
      commitAll msg (some (b1, o1, e1) :: none :: rest)
        = ([Event.shellRun gitAddCmd], rest, none) ∧
      commitAll msg (some (b1, o1, e1) :: some (b2, o2, e2) :: none :: rest)
        = ([Event.shellRun gitAddCmd, Event.shellRun (gitCommitCmd msg)], rest, none) ∧
      commitAll msg (some (b1, o1, e1) :: some (b2, o2, e2) :: some (b3, o3, e3) :: rest)
        = ([Event.shellRun gitAddCmd, Event.shellRun (gitCommitCmd msg),
            Event.shellRun gitRevParseCmd], rest, some (trimL (o3 ++ e3))) ∧
      hasUncommittedChanges (none :: rest) = ([], rest, none) ∧
      hasUncommittedChanges (some (b1, o1, e1) :: rest)
        = ([Event.shellRun gitStatusCmd], rest, some (!(trimL (o1 ++ e1)).isEmpty)) := by
  intro msg b1 b2 b3 o1 e1 o2 e2 o3 e3 rest
  refine ⟨rfl, rfl, rfl, ?_, rfl, ?_⟩
  · simp [commitAll, runShell1, runShellPure, trimL_idem]
  · simp [hasUncommittedChanges, runShell1, runShellPure, trimL_idem]

/-! ## C9: totality of `truncate` -/

set_option maxRecDepth 8192 in
/-- C9 counterexample: `truncate` is not total.  On the 241-byte input
consisting of `'a'` followed by 120 copies of `'é'` (a two-byte character),
the byte limit 240 used for previews falls in the middle of the final `'é'`,
and the byte slice `&input[..240]` panics (modelled as `none`). -/
theorem C9_cex_truncate_panics :
    truncateR ('a' :: List.replicate 120 (Char.ofNat 0xe9)) 240 = none := by
  decide

theorem takeBytes_boundary (s : Str) :
    ∀ max : Nat, (∃ n, byteLen (s.take n) = max) → (takeBytes s max).isSome := by
  induction s with
  | nil =>
    intro max h
    obtain ⟨n, hn⟩ := h
    simp [byteLen] at hn
    subst hn
    simp [takeBytes]
  | cons c cs ih =>
    intro max h
    match max with
    | 0 => simp [takeBytes]
    | m + 1 =>
      obtain ⟨n, hn⟩ := h
      match n with
      | 0 => simp [byteLen] at hn
      | k + 1 =>
        simp only [List.take_succ_cons, byteLen, List.map_cons, List.sum_cons] at hn
        have hle : c.utf8Size ≤ m + 1 := by omega
        have hrest : ∃ n', byteLen (cs.take n') = m + 1 - c.utf8Size := by
          refine ⟨k, ?_⟩
          simp only [byteLen]
          omega
        have := ih (m + 1 - c.utf8Size) hrest
        simp only [takeBytes, if_pos hle]
        cases htb : takeBytes cs (m + 1 - c.utf8Size) with
        | none => rw [htb] at this; simp at this
        | some r => simp

/-- C9 amended: `truncate` is total exactly on the non-panicking side:
whenever the input fits in the limit, or the limit falls on a character
boundary of the input, truncation returns a string (so it never panics on
ASCII input, but the counterexample shows it can panic when the limit falls
inside a multi-byte character). -/
theorem C9_amended_truncate_total_on_boundary :
    ∀ (s : Str) (max : Nat),
      byteLen s ≤ max ∨ (∃ n, byteLen (s.take n) = max) →
      (truncateR s max).isSome := by
  intro s max h
  by_cases hfit : byteLen s ≤ max
  · simp [truncateR, hfit]
  · have hb : ∃ n, byteLen (s.take n) = max := by
      rcases h with h | h
      · exact absurd h hfit
      · exact h
    have := takeBytes_boundary s max hb
    simp only [truncateR, if_neg hfit]
    cases htb : takeBytes s max with
    | none => rw [htb] at this; simp at this
    | some r => simp

/-- Witness for the amended C9 theorem at a concrete input: truncating the
two-byte ASCII string `"ab"` with limit 1 succeeds (the limit is a character
boundary). -/
theorem C9_amended_witness :
    (truncateR ['a', 'b'] 1).isSome := by
  exact C9_amended_truncate_total_on_boundary ['a', 'b'] 1
    (Or.inr ⟨1, by decide⟩)

/-! ## C3: three-tier decision parsing -/

theorem firstIdxCh_spec (c : Char) :
    ∀ (s : Str) (i : Nat), firstIdxCh c s = some i →
      s[i]? = some c ∧ ∀ j, j < i → s[j]? ≠ some c := by
  intro s
  induction s with
  | nil => intro i h; simp [firstIdxCh] at h
  | cons a t ih =>
    intro i h
    by_cases hac : a = c
    · rw [firstIdxCh, if_pos hac] at h
      cases h
      subst hac
      exact ⟨by simp, by omega⟩
    · rw [firstIdxCh, if_neg hac] at h
      cases hft : firstIdxCh c t with
      | none => rw [hft] at h; simp at h
      | some i' =>
        rw [hft] at h
        simp at h
        subst h
        obtain ⟨h1, h2⟩ := ih i' hft
        refine ⟨by simpa using h1, ?_⟩
        intro j hj
        match j with
        | 0 => simpa using fun he => hac he
        | k + 1 =>
          simp only [List.getElem?_cons_succ]
          exact h2 k (by omega)

theorem firstIdxCh_lt (c : Char) (s : Str) (i : Nat)
    (h : firstIdxCh c s = some i) : i < s.length := by
  have := (firstIdxCh_spec c s i h).1
  by_contra hge
  rw [List.getElem?_eq_none (by omega)] at this
  exact Option.noConfusion this

theorem lastIdxCh_spec (c : Char) (s : Str) (e : Nat)
    (h : lastIdxCh c s = some e) :
    s[e]? = some c ∧ ∀ j, e < j → s[j]? ≠ some c := by
  rw [lastIdxCh] at h
  cases hf : firstIdxCh c s.reverse with
  | none => rw [hf] at h; simp at h
  | some i =>
    rw [hf] at h
    simp at h
    have hi : i < s.length := by
      have := firstIdxCh_lt c s.reverse i hf
      simpa using this
    obtain ⟨h1, h2⟩ := firstIdxCh_spec c s.reverse i hf
    subst h
    constructor
    · rw [List.getElem?_reverse (by simpa using hi)] at h1
      exact h1
    · intro j hj hcon
      have hjlen : j < s.length := by
        by_contra hge
        rw [List.getElem?_eq_none (by omega)] at hcon
        exact Option.noConfusion hcon
      have hj' : s.length - 1 - j < i := by omega
      have := h2 (s.length - 1 - j) hj'
      rw [List.getElem?_reverse (by omega)] at this
      have hjj : s.length - 1 - (s.length - 1 - j) = j := by omega
      rw [hjj] at this
      exact this hcon

/-- C3: parsing of planner output is total and three-tiered, first success
winning: a whole-text parse is used if it succeeds; otherwise the inclusive
slice from the first `{` to the last `}` is tried; otherwise the fallback
decision `action=Delegate` with `workerPrompt` the trimmed raw text and all
other fields absent is produced.  The last conjunct characterises the
extracted slice. -/
theorem C3_parse_loop_decision_three_tiers :
    ∀ (jd : Str → Option LoopDecision) (raw : Str),
      (∀ d, jd raw = some d → parseLoopDecision jd raw = d) ∧
      (jd raw = none → ∀ j d, extractJsonObject raw = some j → jd j = some d →
        parseLoopDecision jd raw = d) ∧
      (jd raw = none → (extractJsonObject raw).bind jd = none →
        parseLoopDecision jd raw = ⟨.delegate, none, some (trimL raw), none, none⟩) ∧
      (∀ j, extractJsonObject raw = some j →
        ∃ s e, s < e ∧ raw[s]? = some lbrace ∧ raw[e]? = some rbrace ∧
          (∀ k, k < s → raw[k]? ≠ some lbrace) ∧
          (∀ k, e < k → raw[k]? ≠ some rbrace) ∧
          j = (raw.drop s).take (e - s + 1)) := by
  intro jd raw
  refine ⟨?_, ?_, ?_, ?_⟩
  · intro d h
    simp [parseLoopDecision, h]
  · intro h j d hj hjd
    simp [parseLoopDecision, h, hj, hjd]
  · intro h hb
    simp [parseLoopDecision, h, hb, fallbackDecision]
  · intro j hj
    rw [extractJsonObject] at hj
    cases hf : firstIdxCh lbrace raw with
    | none => simp only [hf] at hj; exact Option.noConfusion hj
    | some start =>
      simp only [hf] at hj
      cases hl : lastIdxCh rbrace raw with
      | none => simp only [hl] at hj; exact Option.noConfusion hj
      | some e =>
        simp only [hl] at hj
        by_cases hes : e ≤ start
        · rw [if_pos hes] at hj; exact Option.noConfusion hj
        · rw [if_neg hes] at hj
          obtain ⟨hf1, hf2⟩ := firstIdxCh_spec lbrace raw start hf
          obtain ⟨hl1, hl2⟩ := lastIdxCh_spec rbrace raw e hl
          exact ⟨start, e, by omega, hf1, hl1, hf2, hl2,
            by cases hj; rfl⟩

/-- Witness for C3 on the fallback tier: on raw text with no parseable
object (the abstract deserialiser always fails) the synthesized Delegate
decision with the trimmed raw text is produced. -/
theorem C3_witness :
    parseLoopDecision (fun _ => none) " do the next thing ".data
      = ⟨.delegate, none, some (trimL " do the next thing ".data), none, none⟩ := by
  exact (C3_parse_loop_decision_three_tiers (fun _ => none)
    " do the next thing ".data).2.2.1 rfl (by decide)

/-! ## C7: test-suite execution order and short-circuiting -/

/-- Position of the first test command whose shell call does not succeed:
`some (k, true)` means command `k` spawned but exited non-zero, and
`some (k, false)` means command `k` failed to spawn (a missing oracle entry
also counts as a spawn failure); `none` means the first `n` commands all
succeeded. -/
def stopAt : Nat → List ShellOut → Option (Nat × Bool)
  | 0, _ => none
  | _ + 1, [] => some (0, false)
  | n + 1, o :: rest =>
    match runShellPure o with
    | none => some (0, false)
    | some r =>
      if r.success then (stopAt n rest).map fun p => (p.1 + 1, p.2)
      else some (0, true)

/-- The accumulated labelled output of the first `n` executed test
commands. -/
def suiteOut : List Str → List ShellOut → Nat → Str
  | _, _, 0 => []
  | [], _, _ + 1 => []
  | _ :: _, [], _ + 1 => []
  | c :: cs, o :: os, n + 1 =>
    match runShellPure o with
    | none => []
    | some r => cmdLabel c r.output ++ suiteOut cs os n

theorem runTestsGo_char :
    ∀ (cmds : List Str) (sh : List ShellOut) (acc : Str),
      match stopAt cmds.length sh with
      | none => runTestsGo cmds sh acc
          = (cmds.map Event.shellRun, sh.drop cmds.length,
              some ⟨true, acc ++ suiteOut cmds sh cmds.length⟩)
      | some (k, true) => runTestsGo cmds sh acc
          = ((cmds.take (k + 1)).map Event.shellRun, sh.drop (k + 1),
              some ⟨false, acc ++ suiteOut cmds sh (k + 1)⟩)
      | some (k, false) => ∃ rest, runTestsGo cmds sh acc
          = ((cmds.take k).map Event.shellRun, rest, none) := by
  intro cmds
  induction cmds with
  | nil => intro sh acc; simp [stopAt, runTestsGo, suiteOut]
  | cons c cs ih =>
    intro sh acc
    cases sh with
    | nil => exact ⟨[], by simp [runTestsGo]⟩
    | cons o os =>
      cases ho : runShellPure o with
      | none =>
        simp only [List.length_cons, stopAt, ho]
        exact ⟨os, by simp [runTestsGo, ho]⟩
      | some r =>
        cases hs : r.success with
        | true =>
          have h := ih os (acc ++ cmdLabel c r.output)
          rcases hst : stopAt cs.length os with _ | ⟨k, b⟩
          · simp only [hst] at h
            simp only [List.length_cons, stopAt, ho, hs, if_true, hst, Option.map_none]
            simp only [runTestsGo, ho, hs, if_true, h]
            simp [suiteOut, ho, List.append_assoc]
          · cases b with
            | true =>
              simp only [hst] at h
              simp only [List.length_cons, stopAt, ho, hs, if_true, hst, Option.map_some]
              simp only [runTestsGo, ho, hs, if_true, h]
              simp [suiteOut, ho, List.append_assoc]
            | false =>
              simp only [hst] at h
              obtain ⟨rest, hrest⟩ := h
              simp only [List.length_cons, stopAt, ho, hs, if_true, hst, Option.map_some]
              refine ⟨rest, ?_⟩
              simp only [runTestsGo, ho, hs, if_true, hrest]
              simp
        | false =>
          simp only [List.length_cons, stopAt, ho, hs, if_false]
          simp only [runTestsGo, ho, hs, if_false]
          simp [suiteOut, ho]

/-- C7: `run_test_suite` on an empty command list returns success with a
placeholder message without executing anything; otherwise (not a dry run)
the commands run strictly in configured order accumulating each executed
command's label and combined output, execution stops at the first command
with a non-zero exit status — reported as a normal `success = false` result,
not an error — and only a spawn failure is an error (`none`). -/
theorem C7_run_test_suite_order :
    (∀ (dry : Bool) (sh : List ShellOut),
      runTestSuite [] dry sh = ([], sh, some ⟨true, "No tests configured.".data⟩)) ∧
    (∀ (cmds : List Str) (sh : List ShellOut), cmds ≠ [] →
      match stopAt cmds.length sh with
      | none => runTestSuite cmds false sh
          = (cmds.map Event.shellRun, sh.drop cmds.length,
              some ⟨true, suiteOut cmds sh cmds.length⟩)
      | some (k, true) => runTestSuite cmds false sh
          = ((cmds.take (k + 1)).map Event.shellRun, sh.drop (k + 1),
              some ⟨false, suiteOut cmds sh (k + 1)⟩)
      | some (k, false) => ∃ rest, runTestSuite cmds false sh
          = ((cmds.take k).map Event.shellRun, rest, none)) := by
  constructor
  · intro dry sh; simp [runTestSuite]
  · intro cmds sh hne
    have hemp : cmds.isEmpty = false := by
      cases cmds with
      | nil => exact absurd rfl hne
      | cons a t => rfl
    have h := runTestsGo_char cmds sh []
    have hrw : runTestSuite cmds false sh = runTestsGo cmds sh [] := by
      simp [runTestSuite, hemp]
    rcases hst : stopAt cmds.length sh with _ | ⟨k, b⟩
    · simp only [hst] at h
      simp only [hst]
      rw [hrw, h]
      simp
    · cases b with
      | true =>
        simp only [hst] at h
        simp only [hst]
        rw [hrw, h]
        simp
      | false =>
        simp only [hst] at h
        obtain ⟨rest, hrest⟩ := h
        simp only [hst]
        exact ⟨rest, by rw [hrw, hrest]⟩

/-- Witness for C7 at a concrete input: a single configured command that
spawns and exits non-zero yields a normal failure result carrying the
command's label and output, with no further execution. -/
theorem C7_witness :
    runTestSuite ["t1".data] false [some (false, "boom".data, [])]
      = ([Event.shellRun "t1".data], [],
          some ⟨false, suiteOut ["t1".data] [some (false, "boom".data, [])] 1⟩) := by
  have h := C7_run_test_suite_order.2 ["t1".data]
    [some (false, "boom".data, [])] (by decide)
  have hst : stopAt (["t1".data] : List Str).length
      [(some (false, "boom".data, []) : ShellOut)] = some (0, true) := by decide
  rw [hst] at h
  simpa using h

/-! ## C2 and C10: `mark_item_done` matching -/

theorem markLines_eq_none (lc : Str → Str) (tn : Str) :
    ∀ ls : List Str, markLines lc tn ls = none ↔ ∀ l ∈ ls, checkLine lc tn l = none := by
  intro ls
  induction ls with
  | nil => simp [markLines]
  | cons line rest ih =>
    cases hc : checkLine lc tn line with
    | some nl => simp [markLines, hc]
    | none =>
      simp only [markLines, hc]
      constructor
      · intro h l hl
        rcases List.mem_cons.mp hl with h1 | h1
        · rw [h1]; exact hc
        · cases hm : markLines lc tn rest with
          | some rs => rw [hm] at h; exact Option.noConfusion h
          | none => exact (ih.mp hm) l h1
      · intro h
        have : markLines lc tn rest = none :=
          ih.mpr fun l hl => h l (List.mem_cons_of_mem _ hl)
        rw [this]
        rfl

theorem markLines_eq_some (lc : Str → Str) (tn : Str) :
    ∀ (ls : List Str) (ls' : List Str), markLines lc tn ls = some ls' →
      ∃ i line nl, ls[i]? = some line ∧ checkLine lc tn line = some nl ∧
        (∀ j, j < i → ∀ lj, ls[j]? = some lj → checkLine lc tn lj = none) ∧
        ls' = ls.set i nl := by
  intro ls
  induction ls with
  | nil => intro ls' h; simp [markLines] at h
  | cons line rest ih =>
    intro ls' h
    cases hc : checkLine lc tn line with
    | some nl =>
      rw [markLines, hc] at h
      cases h
      exact ⟨0, line, nl, by simp, hc, by omega, by simp⟩
    | none =>
      rw [markLines, hc] at h
      cases hm : markLines lc tn rest with
      | none => rw [hm] at h; exact Option.noConfusion h
      | some rs =>
        rw [hm] at h
        simp only [Option.map_some', Option.some.injEq] at h
        obtain ⟨i, l0, nl, hi, hcl, hmin, hset⟩ := ih rs hm
        refine ⟨i + 1, l0, nl, by simpa using hi, hcl, ?_, ?_⟩
        · intro j hj lj hlj
          match j with
          | 0 =>
            simp only [List.getElem?_cons_zero] at hlj
            cases hlj
            exact hc
          | k + 1 =>
            simp only [List.getElem?_cons_succ] at hlj
            exact hmin k (by omega) lj hlj
        · rw [← h, hset]
          rfl

theorem take_sub_dropWhile (p : Char → Bool) (l : List Char) :
    l.take (l.length - (l.dropWhile p).length) = l.takeWhile p := by
  have h : l.takeWhile p ++ l.dropWhile p = l := List.takeWhile_append_dropWhile p l
  have hlen : l.length = (l.takeWhile p).length + (l.dropWhile p).length := by
    conv_lhs => rw [← h]
    exact List.length_append _ _
  have harith : l.length - (l.dropWhile p).length = (l.takeWhile p).length := by omega
  calc l.take (l.length - (l.dropWhile p).length)
      = l.take (l.takeWhile p).length := by rw [harith]
    _ = (l.takeWhile p ++ l.dropWhile p).take (l.takeWhile p).length := by rw [h]
    _ = l.takeWhile p := List.take_left _ _

theorem checkLine_eq_some (lc : Str → Str) (tn line nl : Str) :
    checkLine lc tn line = some nl ↔
      ∃ text, stripLit uncheckedMark (trimStartL line) = some text ∧
        ((normalize lc text == tn) || containsSub (normalize lc text) tn) = true ∧
        nl = line.takeWhile rustIsWhitespace ++ checkedMark ++ trimL text := by
  unfold checkLine
  cases hst : stripLit uncheckedMark (trimStartL line) with
  | none => simp [hst]
  | some text =>
    simp only [hst]
    have hpre : line.take (line.length - (trimStartL line).length)
        = line.takeWhile rustIsWhitespace := take_sub_dropWhile _ _
    by_cases hcond : ((normalize lc text == tn) || containsSub (normalize lc text) tn) = true
    · rw [if_pos hcond]
      constructor
      · intro h
        cases h
        exact ⟨text, rfl, hcond, by rw [hpre]⟩
      · rintro ⟨text', ht', _, hnl⟩
        cases ht'
        rw [hnl, ← hpre]
    · rw [if_neg hcond]
      constructor
      · intro h; exact Option.noConfusion h
      · rintro ⟨text', ht', hcond', _⟩
        cases ht'
        exact absurd hcond' hcond

/-- C2: `mark_item_done` normalizes the target (trim, then `lc`, which
stands for `str::to_lowercase`), scans the lines top-to-bottom, rewrites
exactly the first unchecked item line whose normalized text equals or
contains the normalized target into checked form with its leading
indentation preserved, leaves every other line untouched, and reports a
rewrite; when no unchecked line matches it reports `false` with the content
untouched (no write happens).  The statement is universally quantified over
`lc`, so it holds in particular at the real Unicode case mapping. -/
theorem C2_mark_item_done_first_match :
    ∀ (lc : Str → Str) (contents target : Str),
      (markItemDone lc contents target = none ↔
        ∀ line ∈ rustLines contents, checkLine lc (normalize lc target) line = none) ∧
      (∀ out, markItemDone lc contents target = some out →
        ∃ i line text,
          (rustLines contents)[i]? = some line ∧
          stripLit uncheckedMark (trimStartL line) = some text ∧
          ((normalize lc text == normalize lc target) ||
            containsSub (normalize lc text) (normalize lc target)) = true ∧
          (∀ j, j < i → ∀ lj, (rustLines contents)[j]? = some lj →
            checkLine lc (normalize lc target) lj = none) ∧
          out = rebuild (endsWithNl contents)
            ((rustLines contents).set i
              (line.takeWhile rustIsWhitespace ++ checkedMark ++ trimL text))) := by
  intro lc contents target
  constructor
  · have h1 : markItemDone lc contents target = none ↔
        markLines lc (normalize lc target) (rustLines contents) = none := by
      rw [markItemDone]
      cases hm : markLines lc (normalize lc target) (rustLines contents) with
      | none => simp [Option.map_none']
      | some ls' => simp [Option.map_some']
    rw [h1]
    exact markLines_eq_none _ _ _
  · intro out h
    rw [markItemDone] at h
    cases hm : markLines lc (normalize lc target) (rustLines contents) with
    | none => rw [hm] at h; exact Option.noConfusion h
    | some ls' =>
      rw [hm] at h
      simp only [Option.map_some', Option.some.injEq] at h
      obtain ⟨i, line, nl, hi, hcl, hmin, hset⟩ := markLines_eq_some _ _ _ _ hm
      obtain ⟨text, htext, hcond, hnl⟩ := (checkLine_eq_some _ _ _ _).mp hcl
      exact ⟨i, line, text, hi, htext, hcond, hmin, by rw [← h, hset, hnl]⟩

/-- Witness for C2 at a concrete input: on an all-ASCII file (where
`str::to_lowercase` coincides with the character-wise ASCII map
`asciiLower`) with two unchecked items both matching the target after
normalization, the first one is rewritten (in checked form, indentation
preserved) and the second left untouched. -/
theorem C2_witness :
    ∃ i line text,
      (rustLines "x\n- [ ] Alpha\n- [ ] alpha\n".data)[i]? = some line ∧
      stripLit uncheckedMark (trimStartL line) = some text ∧
      ((normalize asciiLower text == normalize asciiLower " ALPHA ".data) ||
        containsSub (normalize asciiLower text)
          (normalize asciiLower " ALPHA ".data)) = true ∧
      (∀ j, j < i → ∀ lj, (rustLines "x\n- [ ] Alpha\n- [ ] alpha\n".data)[j]? = some lj →
        checkLine asciiLower (normalize asciiLower " ALPHA ".data) lj = none) ∧
      "x\n- [x] Alpha\n- [ ] alpha\n".data = rebuild
        (endsWithNl "x\n- [ ] Alpha\n- [ ] alpha\n".data)
        ((rustLines "x\n- [ ] Alpha\n- [ ] alpha\n".data).set i
          (line.takeWhile rustIsWhitespace ++ checkedMark ++ trimL text)) := by
  exact (C2_mark_item_done_first_match asciiLower
    "x\n- [ ] Alpha\n- [ ] alpha\n".data
    " ALPHA ".data).2 "x\n- [x] Alpha\n- [ ] alpha\n".data (by decide)

theorem containsSub_nil (hay : Str) : containsSub hay [] = true := by
  unfold containsSub
  simp [stripLit]

theorem parseLine_unchecked (line : Str) (it : PrdItem)
    (h : parseLine line = some it) (hc : it.checked = false) :
    (stripLit uncheckedMark (trimStartL line)).isSome := by
  cases h1 : stripLit uncheckedMark (trimStartL line) with
  | some t => simp
  | none =>
    exfalso
    cases h2 : stripLit checkedMark (trimStartL line) with
    | some t =>
      simp only [parseLine, h1, h2] at h
      cases h
      simp at hc
    | none =>
      cases h3 : stripLit checkedMarkUpper (trimStartL line) with
      | some t =>
        simp only [parseLine, h1, h2, h3] at h
        cases h
        simp at hc
      | none =>
        simp only [parseLine, h1, h2, h3] at h
        exact Option.noConfusion h

/-- C10: calling `mark_item_done` with a target whose normalized form is
empty (an empty or all-whitespace target) on a checklist containing at least
one unchecked item marks the *first* unchecked item as done and returns
`true`, because every normalized item text contains the empty string; `lc`
stands for `str::to_lowercase` (which maps the empty trimmed target to the
empty string). -/
theorem C10_empty_target_marks_first_unchecked :
    ∀ (lc : Str → Str) (contents target : Str),
      normalize lc target = [] →
      uncheckedItems (parsePrd contents) ≠ [] →
      ∃ out i line text,
        markItemDone lc contents target = some out ∧
        (rustLines contents)[i]? = some line ∧
        stripLit uncheckedMark (trimStartL line) = some text ∧
        (∀ j, j < i → ∀ lj, (rustLines contents)[j]? = some lj →
          stripLit uncheckedMark (trimStartL lj) = none) ∧
        out = rebuild (endsWithNl contents)
          ((rustLines contents).set i
            (line.takeWhile rustIsWhitespace ++ checkedMark ++ trimL text)) := by
  intro lc contents target htn hne
  -- some line of the file is an unchecked item line
  have hex : ∃ l ∈ rustLines contents,
      (stripLit uncheckedMark (trimStartL l)).isSome := by
    have h1 : ∃ it ∈ parsePrd contents, it.checked = false := by
      by_contra hno
      push_neg at hno
      apply hne
      rw [uncheckedItems, List.filter_eq_nil_iff]
      intro it hit
      simp [hno it hit]
    obtain ⟨it, hit, hitc⟩ := h1
    rw [parsePrd] at hit
    obtain ⟨l, hl, hpl⟩ := List.mem_filterMap.mp hit
    exact ⟨l, hl, parseLine_unchecked l it hpl hitc⟩
  -- hence markLines finds a match
  have hmark : markLines lc (normalize lc target) (rustLines contents) ≠ none := by
    intro hcon
    rw [markLines_eq_none] at hcon
    obtain ⟨l, hl, hsl⟩ := hex
    cases hst : stripLit uncheckedMark (trimStartL l) with
    | none => rw [hst] at hsl; simp at hsl
    | some text =>
      have hsome : checkLine lc (normalize lc target) l
          = some (l.takeWhile rustIsWhitespace ++ checkedMark ++ trimL text) :=
        (checkLine_eq_some _ _ _ _).mpr
          ⟨text, hst, by rw [htn]; simp [containsSub_nil], rfl⟩
      rw [hcon l hl] at hsome
      exact Option.noConfusion hsome
  cases hm : markLines lc (normalize lc target) (rustLines contents) with
  | none => exact absurd hm hmark
  | some ls' =>
    obtain ⟨i, line, nl, hi, hcl, hmin, hset⟩ := markLines_eq_some _ _ _ _ hm
    obtain ⟨text, htext, _, hnl⟩ := (checkLine_eq_some _ _ _ _).mp hcl
    refine ⟨rebuild (endsWithNl contents) ls', i, line, text, ?_, hi, htext, ?_, ?_⟩
    · rw [markItemDone, hm]; rfl
    · intro j hj lj hlj
      have hnone := hmin j hj lj hlj
      cases hst : stripLit uncheckedMark (trimStartL lj) with
      | none => rfl
      | some t =>
        exfalso
        have hsome : checkLine lc (normalize lc target) lj
            = some (lj.takeWhile rustIsWhitespace ++ checkedMark ++ trimL t) :=
          (checkLine_eq_some _ _ _ _).mpr
            ⟨t, hst, by rw [htn]; simp [containsSub_nil], rfl⟩
        rw [hnone] at hsome
        exact Option.noConfusion hsome
    · rw [hset, hnl]

/-- Witness for C10 at a concrete input: an all-whitespace target marks the
first unchecked item of a two-item all-ASCII checklist (on which
`str::to_lowercase` coincides with `asciiLower`). -/
theorem C10_witness :
    ∃ out i line text,
      markItemDone asciiLower "- [ ] hello\n- [ ] world\n".data "  ".data = some out ∧
      (rustLines "- [ ] hello\n- [ ] world\n".data)[i]? = some line ∧
      stripLit uncheckedMark (trimStartL line) = some text ∧
      (∀ j, j < i → ∀ lj, (rustLines "- [ ] hello\n- [ ] world\n".data)[j]? = some lj →
        stripLit uncheckedMark (trimStartL lj) = none) ∧
      out = rebuild (endsWithNl "- [ ] hello\n- [ ] world\n".data)
        ((rustLines "- [ ] hello\n- [ ] world\n".data).set i
          (line.takeWhile rustIsWhitespace ++ checkedMark ++ trimL text)) := by
  exact C10_empty_target_marks_first_unchecked asciiLower
    "- [ ] hello\n- [ ] world\n".data "  ".data (by decide) (by decide)

/-! ## C6: line preservation of the rewrite -/

theorem stripTrailCR_eq_self (l : Str) (h : l.getLast? ≠ some '\r') :
    stripTrailCR l = l := by
  unfold stripTrailCR
  cases hl : l.getLast? with
  | none => rfl
  | some c =>
    by_cases hc : c = '\r'
    · subst hc; exact absurd hl h
    · simp [hc]

theorem mem_stripTrailCR (x : Char) (l : Str) (h : x ∈ stripTrailCR l) : x ∈ l := by
  unfold stripTrailCR at h
  cases hl : l.getLast? with
  | none => rw [hl] at h; exact h
  | some c =>
    simp only [hl] at h
    by_cases hc : c = '\r'
    · rw [if_pos hc] at h
      exact (List.dropLast_sublist l).subset h
    · rw [if_neg hc] at h
      exact h

theorem linesGo_no_nl :
    ∀ (s cur : Str), '\n' ∉ cur → ∀ l ∈ linesGo cur s, '\n' ∉ l := by
  intro s
  induction s with
  | nil =>
    intro cur hcur l hl
    rw [linesGo] at hl
    by_cases hc : cur.isEmpty
    · rw [if_pos hc] at hl; exact absurd hl (List.not_mem_nil l)
    · rw [if_neg hc] at hl
      rcases List.mem_singleton.mp hl with rfl
      intro hmem
      exact hcur (List.mem_reverse.mp hmem)
  | cons c rest ih =>
    intro cur hcur l hl
    rw [linesGo] at hl
    by_cases hc : c = '\n'
    · rw [if_pos hc] at hl
      rcases List.mem_cons.mp hl with rfl | hl'
      · intro hmem
        have := mem_stripTrailCR _ _ hmem
        exact hcur (List.mem_reverse.mp this)
      · exact ih [] (List.not_mem_nil _) l hl'
    · rw [if_neg hc] at hl
      refine ih (c :: cur) ?_ l hl
      intro hmem
      rcases List.mem_cons.mp hmem with h1 | h1
      · exact hc h1.symm
      · exact hcur h1

theorem rustLines_no_nl (s l : Str) (h : l ∈ rustLines s) : '\n' ∉ l :=
  linesGo_no_nl s [] (List.not_mem_nil _) l h

theorem linesGo_eq_nil_iff :
    ∀ (s cur : Str), linesGo cur s = [] ↔ s = [] ∧ cur = [] := by
  intro s
  induction s with
  | nil =>
    intro cur
    rw [linesGo]
    by_cases hc : cur.isEmpty
    · simp [hc, List.isEmpty_iff.mp hc]
    · have hc' : cur ≠ [] := fun h => hc (List.isEmpty_iff.mpr h)
      simp [hc, hc']
  | cons c rest ih =>
    intro cur
    rw [linesGo]
    by_cases hc : c = '\n'
    · simp [hc]
    · rw [if_neg hc]
      rw [ih (c :: cur)]
      simp

theorem linesGo_getLast_ne_nil :
    ∀ (s cur t : Str), s.getLast? ≠ some '\n' →
      (linesGo cur s).getLast? = some t → t ≠ [] := by
  intro s
  induction s with
  | nil =>
    intro cur t _ hlast
    rw [linesGo] at hlast
    by_cases hc : cur.isEmpty
    · rw [if_pos hc] at hlast; exact Option.noConfusion hlast
    · rw [if_neg hc] at hlast
      simp only [List.getLast?_singleton, Option.some.injEq] at hlast
      subst hlast
      intro hrev
      apply hc
      have : cur = [] := by simpa using congrArg List.reverse hrev
      simp [this]
  | cons c rest ih =>
    intro cur t hne hlast
    rw [linesGo] at hlast
    by_cases hc : c = '\n'
    · rw [if_pos hc] at hlast
      have hrest : rest ≠ [] := by
        intro hr
        subst hr
        subst hc
        simp at hne
      have hlg : linesGo [] rest ≠ [] := by
        rw [Ne, linesGo_eq_nil_iff]
        intro ⟨h1, _⟩
        exact hrest h1
      cases hlg2 : linesGo [] rest with
      | nil => exact absurd hlg2 hlg
      | cons a l2 =>
        rw [hlg2, List.getLast?_cons_cons] at hlast
        refine ih [] t ?_ (by rw [hlg2]; exact hlast)
        intro hcon
        apply hne
        cases hrest2 : rest with
        | nil => exact absurd hrest2 hrest
        | cons r rs =>
          rw [List.getLast?_cons_cons]
          rw [hrest2] at hcon
          exact hcon
    · rw [if_neg hc] at hlast
      cases hrest : rest with
      | nil =>
        subst hrest
        rw [linesGo] at hlast
        have hne2 : ((c :: cur).isEmpty) = false := rfl
        rw [hne2] at hlast
        simp only [Bool.false_eq_true, if_false, List.getLast?_singleton,
          Option.some.injEq] at hlast
        subst hlast
        simp
      | cons r rs =>
        refine ih (c :: cur) t ?_ hlast
        intro hcon
        apply hne
        show (c :: rest).getLast? = some '\n'
        rw [hrest, List.getLast?_cons_cons]
        rw [hrest] at hcon
        exact hcon

theorem rustLines_last_ne_nil (s t : Str) (h : endsWithNl s = false)
    (hl : (rustLines s).getLast? = some t) : t ≠ [] := by
  refine linesGo_getLast_ne_nil s [] t ?_ hl
  intro hcon
  rw [endsWithNl, hcon] at h
  simp at h

theorem intercalate_cons₂ (sep x y : Str) (t : List Str) :
    List.intercalate sep (x :: y :: t) = x ++ sep ++ List.intercalate sep (y :: t) := by
  simp [List.intercalate, List.intersperse]

theorem linesGo_append_nl (l : Str) :
    ∀ (cur t : Str), '\n' ∉ l →
      linesGo cur (l ++ '\n' :: t) = stripTrailCR (cur.reverse ++ l) :: linesGo [] t := by
  induction l with
  | nil =>
    intro cur t _
    simp [linesGo]
  | cons c cs ih =>
    intro cur t hnl
    have hc : c ≠ '\n' := fun h => hnl (h ▸ List.mem_cons_self c cs)
    rw [List.cons_append, linesGo, if_neg hc]
    rw [ih (c :: cur) t (fun h => hnl (List.mem_cons_of_mem c h))]
    simp

theorem linesGo_no_nl_eq (l : Str) :
    ∀ cur : Str, '\n' ∉ l →
      linesGo cur l = if (cur.reverse ++ l).isEmpty then [] else [cur.reverse ++ l] := by
  induction l with
  | nil => intro cur _; simp [linesGo]
  | cons c cs ih =>
    intro cur hnl
    have hc : c ≠ '\n' := fun h => hnl (h ▸ List.mem_cons_self c cs)
    rw [linesGo, if_neg hc, ih (c :: cur) (fun h => hnl (List.mem_cons_of_mem c h))]
    simp

theorem rustLines_rebuild :
    ∀ (ls : List Str) (flag : Bool), ls ≠ [] →
      (∀ l ∈ ls, '\n' ∉ l) →
      (∀ l ∈ ls, l.getLast? ≠ some '\r') →
      (flag = false → ls.getLast? ≠ some []) →
      rustLines (rebuild flag ls) = ls := by
  intro ls
  induction ls with
  | nil => intro flag h; exact absurd rfl h
  | cons l ls' ih =>
    intro flag _ hnl hcr hlast
    cases ls' with
    | nil =>
      have hl : '\n' ∉ l := hnl l (List.mem_cons_self _ _)
      have hcrl : l.getLast? ≠ some '\r' := hcr l (List.mem_cons_self _ _)
      cases flag with
      | true =>
        show rustLines (List.intercalate ['\n'] [l] ++ ['\n']) = [l]
        have hint : List.intercalate ['\n'] [l] = l := by
          simp [List.intercalate, List.intersperse]
        rw [hint, rustLines, linesGo_append_nl l [] [] hl]
        simp [linesGo, stripTrailCR_eq_self l hcrl]
      | false =>
        have hlne : l ≠ [] := by
          intro hcon
          exact (hlast rfl) (by simp [hcon])
        show rustLines (List.intercalate ['\n'] [l]) = [l]
        have hint : List.intercalate ['\n'] [l] = l := by
          simp [List.intercalate, List.intersperse]
        rw [hint, rustLines, linesGo_no_nl_eq l [] hl]
        simp [List.isEmpty_iff, hlne]
    | cons l2 ls'' =>
      have hl : '\n' ∉ l := hnl l (List.mem_cons_self _ _)
      have hcrl : l.getLast? ≠ some '\r' := hcr l (List.mem_cons_self _ _)
      have hreb : rebuild flag (l :: l2 :: ls'')
          = l ++ '\n' :: rebuild flag (l2 :: ls'') := by
        rw [rebuild, rebuild, intercalate_cons₂]
        cases flag <;> simp
      rw [hreb, rustLines, linesGo_append_nl l [] _ hl]
      have hih : rustLines (rebuild flag (l2 :: ls'')) = l2 :: ls'' := by
        refine ih flag (by simp) ?_ ?_ ?_
        · intro x hx; exact hnl x (List.mem_cons_of_mem _ hx)
        · intro x hx; exact hcr x (List.mem_cons_of_mem _ hx)
        · intro hf
          have := hlast hf
          simpa [List.getLast?_cons_cons] using this
      rw [rustLines] at hih
      rw [hih]
      simp [stripTrailCR_eq_self l hcrl]

theorem intercalate_ne_nil_last :
    ∀ ls : List Str, ls ≠ [] → (∀ l ∈ ls, '\n' ∉ l) → ls.getLast? ≠ some [] →
      List.intercalate ['\n'] ls ≠ [] ∧
      (List.intercalate ['\n'] ls).getLast? ≠ some '\n' := by
  intro ls
  induction ls with
  | nil => intro h; exact absurd rfl h
  | cons l ls' ih =>
    intro _ hnl hlast
    cases ls' with
    | nil =>
      have hint : List.intercalate ['\n'] [l] = l := by
        simp [List.intercalate, List.intersperse]
      have hlne : l ≠ [] := by
        intro hcon
        exact hlast (by simp [hcon])
      refine ⟨by rw [hint]; exact hlne, ?_⟩
      rw [hint]
      intro hcon
      have : '\n' ∈ l := by
        cases l with
        | nil => exact absurd rfl hlne
        | cons a t =>
          have := List.getLast?_eq_getElem? (a :: t)
          rw [this] at hcon
          have hmem := List.getElem?_eq_some_iff.mp hcon
          obtain ⟨hlt, hget⟩ := hmem
          exact hget ▸ List.getElem_mem hlt
      exact hnl l (List.mem_cons_self _ _) this
    | cons l2 ls'' =>
      obtain ⟨hne2, hlast2⟩ := ih (by simp)
        (fun x hx => hnl x (List.mem_cons_of_mem _ hx))
        (by simpa [List.getLast?_cons_cons] using hlast)
      rw [intercalate_cons₂]
      constructor
      · simp
      · rw [List.append_assoc, List.getLast?_append_of_ne_nil l (by simp),
          List.getLast?_append_of_ne_nil ['\n'] hne2]
        exact hlast2

theorem stripLit_subset :
    ∀ (pat s t : Str), stripLit pat s = some t → ∀ x ∈ t, x ∈ s := by
  intro pat
  induction pat with
  | nil =>
    intro s t h x hx
    rw [stripLit] at h
    cases h
    exact hx
  | cons p ps ih =>
    intro s t h x hx
    cases s with
    | nil => rw [stripLit] at h; exact Option.noConfusion h
    | cons c cs =>
      rw [stripLit] at h
      by_cases hpc : p = c
      · rw [if_pos hpc] at h
        exact List.mem_cons_of_mem c (ih cs t h x hx)
      · rw [if_neg hpc] at h
        exact Option.noConfusion h

theorem trimStartL_subset (s : Str) (x : Char) (h : x ∈ trimStartL s) : x ∈ s :=
  (List.dropWhile_sublist _).subset h

theorem trimEndL_subset (s : Str) (x : Char) (h : x ∈ trimEndL s) : x ∈ s := by
  rw [trimEndL, List.mem_reverse] at h
  exact List.mem_reverse.mp ((List.dropWhile_sublist _).subset h)

theorem trimL_subset (s : Str) (x : Char) (h : x ∈ trimL s) : x ∈ s :=
  trimStartL_subset s x (trimEndL_subset (trimStartL s) x h)

theorem dropWhile_head_false (p : Char → Bool) :
    ∀ (l : List Char) (a : Char) (t : List Char),
      List.dropWhile p l = a :: t → p a = false := by
  intro l
  induction l with
  | nil => intro a t h; simp [List.dropWhile] at h
  | cons c cs ih =>
    intro a t h
    rw [List.dropWhile_cons] at h
    by_cases hc : p c
    · rw [if_pos hc] at h; exact ih a t h
    · rw [if_neg hc] at h
      cases h
      simpa using hc

theorem trimEndL_getLast_not_ws (y : Str) (c : Char)
    (h : (trimEndL y).getLast? = some c) : rustIsWhitespace c = false := by
  rw [trimEndL, List.getLast?_reverse] at h
  cases hd : List.dropWhile rustIsWhitespace y.reverse with
  | nil => rw [hd] at h; exact Option.noConfusion h
  | cons a t =>
    rw [hd] at h
    simp only [List.head?_cons, Option.some.injEq] at h
    subst h
    exact dropWhile_head_false rustIsWhitespace y.reverse _ t hd

theorem newLine_clean (line text : Str) (hno : '\n' ∉ line)
    (ht : stripLit uncheckedMark (trimStartL line) = some text) :
    '\n' ∉ line.takeWhile rustIsWhitespace ++ checkedMark ++ trimL text ∧
    (line.takeWhile rustIsWhitespace ++ checkedMark ++ trimL text).getLast?
      ≠ some '\r' ∧
    line.takeWhile rustIsWhitespace ++ checkedMark ++ trimL text ≠ [] := by
  refine ⟨?_, ?_, by simp [checkedMark]⟩
  · intro hmem
    rcases List.mem_append.mp hmem with h1 | h1
    · rcases List.mem_append.mp h1 with h2 | h2
      · exact hno (List.takeWhile_subset _ h2)
      · revert h2; decide
    · exact hno (trimStartL_subset line '\n'
        (stripLit_subset uncheckedMark (trimStartL line) text ht '\n'
          (trimL_subset text '\n' h1)))
  · cases htr : trimL text with
    | nil =>
      rw [List.append_nil,
        List.getLast?_append_of_ne_nil _ (by simp [checkedMark])]
      decide
    | cons a t =>
      rw [List.getLast?_append_of_ne_nil _ (by simp)]
      intro hcon
      have hcon2 : (trimEndL (trimStartL text)).getLast? = some '\r' := by
        show (trimL text).getLast? = some '\r'
        rw [htr]
        exact hcon
      have hws := trimEndL_getLast_not_ws (trimStartL text) '\r' hcon2
      revert hws; decide

/-- C6 counterexample: the claim fails for content containing the byte
sequence `\r\r\n`.  On `"x\r\r\n- [ ] t"` with target `"t"` (all-ASCII
input, on which `str::to_lowercase` coincides with `asciiLower`), the item
line is rewritten, but the untouched non-item first line, whose line value
in the original content is `"x\r"`, reads back as `"x"` from the rewritten
file: the rewrite does not preserve it exactly. -/
theorem C6_cex_cr_line_not_preserved :
    markItemDone asciiLower "x\r\r\n- [ ] t".data "t".data = some "x\r\n- [x] t".data ∧
    (rustLines "x\r\r\n- [ ] t".data)[0]? = some "x\r".data ∧
    (rustLines "x\r\n- [x] t".data)[0]? = some "x".data ∧
    "x\r".data ≠ "x".data := by
  exact ⟨by decide, by decide, by decide, by decide⟩

/-- C6 amended: for content none of whose lines ends in a carriage return
(the counterexample shows a line ending in `'\r'`, produced by a `\r\r\n`
sequence, is not preserved), a successful `mark_item_done` preserves every
line other than the single rewritten one exactly, and the rewritten file
ends with a trailing newline iff the original content did. -/
theorem C6_amended_line_preservation :
    ∀ (lc : Str → Str) (contents target out : Str),
      (∀ l ∈ rustLines contents, l.getLast? ≠ some '\r') →
      markItemDone lc contents target = some out →
      endsWithNl out = endsWithNl contents ∧
      (rustLines out).length = (rustLines contents).length ∧
      ∃ i, i < (rustLines contents).length ∧
        ∀ j, j ≠ i → (rustLines out)[j]? = (rustLines contents)[j]? := by
  intro lc contents target out hcr h
  rw [markItemDone] at h
  cases hm : markLines lc (normalize lc target) (rustLines contents) with
  | none => rw [hm] at h; exact Option.noConfusion h
  | some ls' =>
    rw [hm] at h
    simp only [Option.map_some', Option.some.injEq] at h
    obtain ⟨i, line, nl, hi, hcl, hmin, hset⟩ := markLines_eq_some _ _ _ _ hm
    obtain ⟨text, htext, hcond, hnl⟩ := (checkLine_eq_some _ _ _ _).mp hcl
    obtain ⟨hilt, hgeti⟩ := List.getElem?_eq_some_iff.mp hi
    have hlmem : line ∈ rustLines contents := hgeti ▸ List.getElem_mem hilt
    have hlineNoNl : '\n' ∉ line := rustLines_no_nl contents line hlmem
    obtain ⟨hnlNoNl, hnlCr, hnlNe⟩ := newLine_clean line text hlineNoNl htext
    rw [← hnl] at hnlNoNl hnlCr hnlNe
    have hlsNe : ls' ≠ [] := by
      rw [hset]
      intro hcon
      have hlen : i < ((rustLines contents).set i nl).length := by
        rw [List.length_set]; exact hilt
      rw [hcon] at hlen
      simp at hlen
    have hlsNoNl : ∀ l ∈ ls', '\n' ∉ l := by
      intro l hl
      rw [hset] at hl
      rcases List.mem_or_eq_of_mem_set hl with h1 | h1
      · exact rustLines_no_nl contents l h1
      · rw [h1]; exact hnlNoNl
    have hlsCr : ∀ l ∈ ls', l.getLast? ≠ some '\r' := by
      intro l hl
      rw [hset] at hl
      rcases List.mem_or_eq_of_mem_set hl with h1 | h1
      · exact hcr l h1
      · rw [h1]; exact hnlCr
    have hlsLast : endsWithNl contents = false → ls'.getLast? ≠ some [] := by
      intro hf hcon
      rw [List.getLast?_eq_getElem?, hset, List.length_set] at hcon
      by_cases hieq : i = (rustLines contents).length - 1
      · rw [← hieq, List.getElem?_set_self hilt] at hcon
        exact hnlNe (by injection hcon)
      · rw [List.getElem?_set_ne hieq] at hcon
        rw [← List.getLast?_eq_getElem?] at hcon
        exact rustLines_last_ne_nil contents [] hf hcon rfl
    have hround : rustLines out = ls' := by
      rw [← h]
      exact rustLines_rebuild ls' (endsWithNl contents) hlsNe hlsNoNl hlsCr hlsLast
    have hflag : endsWithNl out = endsWithNl contents := by
      rw [← h]
      cases hf : endsWithNl contents with
      | true =>
        show endsWithNl (List.intercalate ['\n'] ls' ++ ['\n']) = true
        rw [endsWithNl, List.getLast?_concat]
        rfl
      | false =>
        obtain ⟨_, hlast2⟩ := intercalate_ne_nil_last ls' hlsNe hlsNoNl (hlsLast hf)
        show endsWithNl (List.intercalate ['\n'] ls') = false
        rw [endsWithNl]
        simpa using hlast2
    refine ⟨hflag, ?_, i, hilt, ?_⟩
    · rw [hround, hset, List.length_set]
    · intro j hj
      rw [hround, hset, List.getElem?_set_ne (fun hcon => hj hcon.symm)]

/-- Witness for the amended C6 at a concrete input: rewriting the item line
of `"a\n- [ ] t\n"` preserves the trailing newline, the line count, and the
non-rewritten first line. -/
theorem C6_witness :
    endsWithNl "a\n- [x] t\n".data = endsWithNl "a\n- [ ] t\n".data ∧
    (rustLines "a\n- [x] t\n".data).length = (rustLines "a\n- [ ] t\n".data).length ∧
    ∃ i, i < (rustLines "a\n- [ ] t\n".data).length ∧
      ∀ j, j ≠ i → (rustLines "a\n- [x] t\n".data)[j]? = (rustLines "a\n- [ ] t\n".data)[j]? := by
  exact C6_amended_line_preservation asciiLower "a\n- [ ] t\n".data "t".data
    "a\n- [x] t\n".data (by decide) (by decide)

/-! ## C5: dry runs have no side effects -/

/-- The state carried by a step result. -/
def StepRes.state : StepRes → RunState
  | .next s => s
  | .halt s => s
  | .fail s => s

/-- Preservation of the checklist, all oracles, and the completed/commit
counters between two states. -/
def OraclePres (s s' : RunState) : Prop :=
  s'.prd = s.prd ∧ s'.loopOuts = s.loopOuts ∧ s'.workerOuts = s.workerOuts ∧
  s'.shellOuts = s.shellOuts ∧
  s'.summary.completedItems = s.summary.completedItems ∧
  s'.summary.commits = s.summary.commits

theorem oraclePres_refl (s : RunState) : OraclePres s s :=
  ⟨rfl, rfl, rfl, rfl, rfl, rfl⟩

theorem oraclePres_trans {a b c : RunState}
    (h1 : OraclePres a b) (h2 : OraclePres b c) : OraclePres a c := by
  obtain ⟨x1, x2, x3, x4, x5, x6⟩ := h1
  obtain ⟨y1, y2, y3, y4, y5, y6⟩ := h2
  exact ⟨y1.trans x1, y2.trans x2, y3.trans x3, y4.trans x4,
    y5.trans x5, y6.trans x6⟩

theorem dry_runTestSuite (cmds : List Str) (sh : List ShellOut) :
    runTestSuite cmds true sh
      = ([], sh, some ⟨true,
          if cmds.isEmpty then "No tests configured.".data else dryOutputs cmds⟩) := by
  by_cases hc : cmds.isEmpty <;> simp [runTestSuite, hc]

theorem dry_commitPhase (cfg : Config) (opts : RunOptions) (d : LoopDecision)
    (ti : Str) (sh : List ShellOut) (h : opts.dryRun = true) :
    commitPhase cfg opts d ti sh = ([], sh, some none) := by
  simp [commitPhase, h]

theorem dry_markPhase (lc : Str → Str) (cfg : Config) (opts : RunOptions)
    (ti prd : Str) (h : opts.dryRun = true) :
    markPhase lc cfg opts ti prd = ([], prd, false) := by
  simp [markPhase, h]

theorem dry_successTail (lc : Str → Str) (cfg : Config) (opts : RunOptions)
    (step : Nat)
    (d : LoopDecision) (ti : Str) (s : RunState) (h : opts.dryRun = true) :
    successTail lc cfg opts step d ti s
      = ([], .next {s with
          summary := ⟨step, s.summary.completedItems, s.summary.commits⟩,
          loopContext := "Completed item `".data ++ ti ++ "`. Commit: ".data
            ++ "none".data}) := by
  rw [successTail, dry_commitPhase cfg opts d ti s.shellOuts h]
  simp [dry_markPhase lc cfg opts ti s.prd h]

theorem dry_afterWorker (lc : Str → Str) (cfg : Config) (opts : RunOptions)
    (step : Nat)
    (d : LoopDecision) (ti wt : Str) (s : RunState) (h : opts.dryRun = true) :
    (afterWorker lc cfg opts step d ti wt s).1 = [] ∧
    (afterWorker lc cfg opts step d ti wt s).2
      = .next {s with
          summary := ⟨step, s.summary.completedItems, s.summary.commits⟩,
          loopContext := "Completed item `".data ++ ti ++ "`. Commit: ".data
            ++ "none".data} := by
  rw [afterWorker, h]
  simp only [dry_runTestSuite cfg.workflow.executionTests s.shellOuts,
    Bool.not_true, Bool.false_and, Bool.false_eq_true, if_false,
    afterTests, dry_successTail lc cfg opts step d ti _ h, List.nil_append]
  exact ⟨trivial, trivial⟩

theorem dry_runStep (lc : Str → Str) (cfg : Config) (opts : RunOptions)
    (jd : Str → Option LoopDecision) (step : Nat) (s : RunState)
    (h : opts.dryRun = true) :
    (runStep lc cfg opts jd step s).1 = [] ∧
    OraclePres s ((runStep lc cfg opts jd step s).2).state := by
  cases hu : uncheckedItems (parsePrd s.prd) with
  | nil => simp only [runStep, hu]; exact ⟨trivial, oraclePres_refl s⟩
  | cons first rest =>
    simp only [runStep, hu]
    rw [if_pos h]
    cases ht : truncateR (buildLoopPrompt cfg (parsePrd s.prd) s.loopContext
        cfg.workflow.executionTests) 240 with
    | none => simp only [ht]; exact ⟨trivial, oraclePres_refl s⟩
    | some p =>
      simp only [ht, stepBody, dryRunDecision, buildWorkerPrompt, failureBlock,
        Option.getD_some, Option.map_some']
      rw [if_pos h]
      obtain ⟨h1, h2⟩ := dry_afterWorker lc cfg opts step
        ⟨LoopAction.delegate, some first.text,
          some ("Implement PRD item: ".data ++ first.text), none,
          some "dry-run synthetic decision".data⟩
        first.text ("Implement PRD item: ".data ++ first.text) s h
      refine ⟨h1, ?_⟩
      rw [h2]
      exact ⟨rfl, rfl, rfl, rfl, rfl, rfl⟩

theorem dry_runLoop (lc : Str → Str) (cfg : Config) (opts : RunOptions)
    (jd : Str → Option LoopDecision) (h : opts.dryRun = true) :
    ∀ (n step : Nat) (s : RunState),
      (runLoop lc cfg opts jd n step s).1 = [] ∧
      OraclePres s (runLoop lc cfg opts jd n step s).2.1 ∧
      ∀ sum, (runLoop lc cfg opts jd n step s).2.2 = some sum →
        sum.completedItems = s.summary.completedItems ∧
        sum.commits = s.summary.commits := by
  intro n
  induction n with
  | zero =>
    intro step s
    exact ⟨rfl, oraclePres_refl s, fun sum hs => by cases hs; exact ⟨rfl, rfl⟩⟩
  | succ m ih =>
    intro step s
    obtain ⟨he, hp⟩ := dry_runStep lc cfg opts jd step s h
    rcases hrs : runStep lc cfg opts jd step s with ⟨e, r⟩
    rw [hrs] at he hp
    cases r with
    | halt s' =>
      simp only [runLoop, hrs]
      refine ⟨he, hp, ?_⟩
      intro sum hsum
      cases hsum
      exact ⟨hp.2.2.2.2.1, hp.2.2.2.2.2⟩
    | fail s' =>
      simp only [runLoop, hrs]
      exact ⟨he, hp, fun sum hsum => Option.noConfusion hsum⟩
    | next s' =>
      obtain ⟨ihe, ihp, ihs⟩ := ih (step + 1) s'
      rcases hrl : runLoop lc cfg opts jd m (step + 1) s' with ⟨e2, s'', res⟩
      rw [hrl] at ihe ihp ihs
      simp only [runLoop, hrs, hrl]
      refine ⟨?_, oraclePres_trans hp ihp, ?_⟩
      · rw [show e = [] from he, show e2 = [] from ihe]
        rfl
      · intro sum hsum
        obtain ⟨a, b⟩ := ihs sum hsum
        exact ⟨a.trans hp.2.2.2.2.1, b.trans hp.2.2.2.2.2⟩

/-- C5: a dry run has no side effects: the event trace is empty (no agent
invocation, no test command, no version-control command, no checklist
write), no oracle is consumed, the checklist contents are untouched, and
any returned summary has `commits = 0` and `completedItems = 0`. -/
theorem C5_dry_run_no_side_effects :
    ∀ (lc : Str → Str) (cfg : Config) (opts : RunOptions)
      (jd : Str → Option LoopDecision)
      (s : RunState), opts.dryRun = true →
      (run lc cfg opts jd s).1 = [] ∧
      (run lc cfg opts jd s).2.1.prd = s.prd ∧
      (run lc cfg opts jd s).2.1.loopOuts = s.loopOuts ∧
      (run lc cfg opts jd s).2.1.workerOuts = s.workerOuts ∧
      (run lc cfg opts jd s).2.1.shellOuts = s.shellOuts ∧
      ∀ sum, (run lc cfg opts jd s).2.2 = some sum →
        sum.commits = 0 ∧ sum.completedItems = 0 := by
  intro lc cfg opts jd s h
  obtain ⟨he, hp, hs⟩ := dry_runLoop lc cfg opts jd h (effectiveMax cfg opts) 1
    {s with summary := ⟨0, 0, 0⟩, loopContext := []}
  refine ⟨he, hp.1, hp.2.1, hp.2.2.1, hp.2.2.2.1, ?_⟩
  intro sum hsum
  obtain ⟨a, b⟩ := hs sum hsum
  exact ⟨b, a⟩

/-- Witness for C5 at a concrete configuration: a dry run over a two-item
checklist with a test command, auto-commit and auto-mark enabled still
produces an empty event trace. -/
theorem C5_witness :
    (run asciiLower ⟨"PRD.md".data, true, ⟨2, 1, true, ["cargo test".data]⟩,
        ⟨[], [], "ls".data⟩, ⟨[], [], "ws".data⟩⟩
      ⟨none, true⟩ (fun _ => none)
      ⟨"- [ ] a\n- [ ] b\n".data, [], [], [], ⟨0, 0, 0⟩, []⟩).1 = [] := by
  exact (C5_dry_run_no_side_effects _ _ _ _ _ rfl).1

/-! ## C8: iteration and counter invariants -/

/-- How one iteration may change the summary: either untouched, or the
iteration counter is set to the current step while each of the two item
counters grows by at most one. -/
def SummOk (step : Nat) (a b : RunSummary) : Prop :=
  b = a ∨ (b.iterations = step ∧
    (b.completedItems = a.completedItems ∨ b.completedItems = a.completedItems + 1) ∧
    (b.commits = a.commits ∨ b.commits = a.commits + 1))

theorem summOk_successTail (lc : Str → Str) (cfg : Config) (opts : RunOptions)
    (step : Nat)
    (d : LoopDecision) (ti : Str) (s : RunState) :
    SummOk step s.summary ((successTail lc cfg opts step d ti s).2).state.summary := by
  rw [successTail]
  rcases hcp : commitPhase cfg opts d ti s.shellOuts with ⟨e1, sh', r⟩
  cases r with
  | none => simp only [hcp]; left; rfl
  | some commitHash =>
    simp only [hcp]
    right
    refine ⟨rfl, ?_, ?_⟩
    · cases hm : (markPhase lc cfg opts ti s.prd).2.2 with
      | false => left; simp [hm, StepRes.state]
      | true => right; simp [hm, StepRes.state]
    · cases commitHash with
      | none => left; simp [StepRes.state]
      | some hsh => right; simp [StepRes.state]

theorem summOk_afterTests (lc : Str → Str) (cfg : Config) (opts : RunOptions)
    (step : Nat)
    (d : LoopDecision) (ti : Str) (tr : TestRun) (s : RunState) :
    SummOk step s.summary ((afterTests lc cfg opts step d ti tr s).2).state.summary := by
  rw [afterTests]
  by_cases hs : (!tr.success) = true
  · rw [if_pos hs]
    right
    exact ⟨rfl, Or.inl rfl, Or.inl rfl⟩
  · rw [if_neg hs]
    exact summOk_successTail lc cfg opts step d ti s

theorem summOk_afterWorker (lc : Str → Str) (cfg : Config) (opts : RunOptions)
    (step : Nat)
    (d : LoopDecision) (ti wt : Str) (s : RunState) :
    SummOk step s.summary ((afterWorker lc cfg opts step d ti wt s).2).state.summary := by
  rw [afterWorker]
  rcases hts : runTestSuite cfg.workflow.executionTests opts.dryRun s.shellOuts
    with ⟨e1, sh1, tres⟩
  cases tres with
  | none => simp only [hts]; left; rfl
  | some tr0 =>
    simp only [hts]
    by_cases hc : (!tr0.success && !opts.dryRun) = true
    · rw [if_pos hc]
      rcases hfa : fixAttempts cfg ti wt tr0 cfg.workflow.maxFixAttempts
        s.workerOuts sh1 with ⟨e2, w2, sh2, fres⟩
      cases fres with
      | none => simp only [hfa]; left; rfl
      | some tr =>
        simp only [hfa]
        have h := summOk_afterTests lc cfg opts step d ti tr
          {s with workerOuts := w2, shellOuts := sh2}
        rcases hat : afterTests lc cfg opts step d ti tr
          {s with workerOuts := w2, shellOuts := sh2} with ⟨e3, res⟩
        rw [hat] at h
        simp only [hat]
        exact h
    · rw [if_neg hc]
      have h := summOk_afterTests lc cfg opts step d ti tr0 {s with shellOuts := sh1}
      rcases hat : afterTests lc cfg opts step d ti tr0 {s with shellOuts := sh1}
        with ⟨e3, res⟩
      rw [hat] at h
      simp only [hat]
      exact h

theorem summOk_stepBody (lc : Str → Str) (cfg : Config) (opts : RunOptions)
    (step : Nat)
    (d : LoopDecision) (fu : Str) (s : RunState) :
    SummOk step s.summary ((stepBody lc cfg opts step d fu s).2).state.summary := by
  rw [stepBody]
  cases hda : d.action with
  | done =>
    simp only
    right
    exact ⟨rfl, Or.inl rfl, Or.inl rfl⟩
  | delegate =>
    simp only
    cases hbw : buildWorkerPrompt cfg.workerAgent (d.targetItem.getD fu)
        (d.workerPrompt.getD (defaultWorkerTask (d.targetItem.getD fu))) none
        cfg.workflow.executionTests with
    | none => simp only [hbw]; left; rfl
    | some wp =>
      simp only [hbw]
      by_cases hdr : opts.dryRun = true
      · rw [if_pos hdr]
        exact summOk_afterWorker lc cfg opts step d (d.targetItem.getD fu)
          (d.workerPrompt.getD (defaultWorkerTask (d.targetItem.getD fu))) s
      · rw [if_neg hdr]
        rcases hia : invokeAgent .implementer wp s.workerOuts with ⟨e, w', wres⟩
        cases wres with
        | none => simp only [hia]; left; rfl
        | some wout =>
          simp only [hia]
          cases htc : truncateR wout 240 with
          | none => simp only [htc]; left; rfl
          | some _ =>
            simp only [htc]
            have h := summOk_afterWorker lc cfg opts step d (d.targetItem.getD fu)
              (d.workerPrompt.getD (defaultWorkerTask (d.targetItem.getD fu)))
              {s with workerOuts := w'}
            rcases haw : afterWorker lc cfg opts step d (d.targetItem.getD fu)
              (d.workerPrompt.getD (defaultWorkerTask (d.targetItem.getD fu)))
              {s with workerOuts := w'} with ⟨e2, res⟩
            rw [haw] at h
            simp only [haw]
            exact h

theorem summOk_runStep (lc : Str → Str) (cfg : Config) (opts : RunOptions)
    (jd : Str → Option LoopDecision) (step : Nat) (s : RunState) :
    SummOk step s.summary ((runStep lc cfg opts jd step s).2).state.summary := by
  rw [runStep]
  cases hu : uncheckedItems (parsePrd s.prd) with
  | nil => left; rfl
  | cons first rest =>
    simp only
    by_cases hdr : opts.dryRun = true
    · rw [if_pos hdr]
      cases ht : truncateR (buildLoopPrompt cfg (parsePrd s.prd) s.loopContext
          cfg.workflow.executionTests) 240 with
      | none => simp only [ht]; left; rfl
      | some _ =>
        simp only [ht]
        exact summOk_stepBody lc cfg opts step (dryRunDecision first.text) first.text s
    · rw [if_neg hdr]
      rcases hia : invokeAgent .planner (buildLoopPrompt cfg (parsePrd s.prd)
          s.loopContext cfg.workflow.executionTests) s.loopOuts with ⟨e, l', lres⟩
      cases lres with
      | none => simp only [hia]; left; rfl
      | some out =>
        simp only [hia]
        have h := summOk_stepBody lc cfg opts step (parseLoopDecision jd out)
          first.text {s with loopOuts := l'}
        rcases hsb : stepBody lc cfg opts step (parseLoopDecision jd out) first.text
          {s with loopOuts := l'} with ⟨e2, res⟩
        rw [hsb] at h
        simp only [hsb]
        exact h

theorem runLoop_inv (lc : Str → Str) (cfg : Config) (opts : RunOptions)
    (jd : Str → Option LoopDecision) :
    ∀ (n step : Nat) (s : RunState),
      s.summary.completedItems ≤ s.summary.iterations →
      s.summary.commits ≤ s.summary.iterations →
      s.summary.iterations + 1 ≤ step →
      ∀ tr s' sum, runLoop lc cfg opts jd n step s = (tr, s', some sum) →
        sum.completedItems ≤ sum.iterations ∧ sum.commits ≤ sum.iterations ∧
        sum.iterations + 1 ≤ step + n := by
  intro n
  induction n with
  | zero =>
    intro step s h1 h2 h3 tr s' sum heq
    rw [runLoop] at heq
    cases heq
    exact ⟨h1, h2, by omega⟩
  | succ m ih =>
    intro step s h1 h2 h3 tr s' sum heq
    have hok := summOk_runStep lc cfg opts jd step s
    rcases hrs : runStep lc cfg opts jd step s with ⟨e, r⟩
    rw [hrs] at hok
    cases r with
    | halt s2 =>
      have hok2 : SummOk step s.summary s2.summary := hok
      simp only [runLoop, hrs] at heq
      cases heq
      rcases hok2 with hok2 | ⟨hit, hcomp, hcommit⟩
      · rw [hok2]
        exact ⟨h1, h2, by omega⟩
      · refine ⟨?_, ?_, by omega⟩
        · rcases hcomp with h | h <;> omega
        · rcases hcommit with h | h <;> omega
    | fail s2 =>
      simp only [runLoop, hrs, Prod.mk.injEq] at heq
      exact absurd heq.2.2 (by simp)
    | next s2 =>
      have hok2 : SummOk step s.summary s2.summary := hok
      rcases hrl : runLoop lc cfg opts jd m (step + 1) s2 with ⟨e2, s3, res⟩
      simp only [runLoop, hrs, hrl, Prod.mk.injEq] at heq
      obtain ⟨het, hst, hres⟩ := heq
      have hnext := ih (step + 1) s2 ?_ ?_ ?_ e2 s3 sum (by rw [hrl, hres])
      · exact ⟨hnext.1, hnext.2.1, by omega⟩
      · rcases hok2 with hok2 | ⟨hit, hcomp, hcommit⟩
        · rw [hok2]; exact h1
        · rcases hcomp with h | h <;> omega
      · rcases hok2 with hok2 | ⟨hit, hcomp, hcommit⟩
        · rw [hok2]; exact h2
        · rcases hcommit with h | h <;> omega
      · rcases hok2 with hok2 | ⟨hit, _, _⟩
        · rw [hok2]; omega
        · omega

theorem truncateR_of_le (s : Str) (max : Nat) (h : byteLen s ≤ max) :
    truncateR s max = some s := by
  simp [truncateR, h]

set_option maxRecDepth 8192 in
/-- One iteration under a delegating planner with no configured tests, no
auto-commit and no auto-mark: the planner and the implementer are invoked
once each and the step advances with the counters untouched. -/
theorem clean_delegate_step (lc : Str → Str) (cfg : Config) (opts : RunOptions)
    (jd : Str → Option LoopDecision) (step : Nat) (s : RunState)
    (first : PrdItem) (us : List PrdItem) (lraw : Str)
    (lrest : List (Option Str)) (d : LoopDecision) (w : Str)
    (wrest : List (Option Str))
    (hdr : opts.dryRun = false)
    (hte : cfg.workflow.executionTests = [])
    (hac : cfg.workflow.autoCommit = false)
    (ham : cfg.autoMarkCompleted = false)
    (hu : uncheckedItems (parsePrd s.prd) = first :: us)
    (hl : s.loopOuts = some lraw :: lrest)
    (hjd : jd lraw = some d)
    (hda : d.action = .delegate)
    (hw : s.workerOuts = some w :: wrest)
    (hwlen : byteLen w ≤ 240) :
    runStep lc cfg opts jd step s =
      ([Event.agentInvoke .planner (buildLoopPrompt cfg (parsePrd s.prd)
          s.loopContext cfg.workflow.executionTests),
        Event.agentInvoke .implementer
          ((buildWorkerPrompt cfg.workerAgent (d.targetItem.getD first.text)
            (d.workerPrompt.getD (defaultWorkerTask (d.targetItem.getD first.text)))
            none cfg.workflow.executionTests).getD [])],
       .next {s with
         loopOuts := lrest,
         workerOuts := wrest,
         summary := ⟨step, s.summary.completedItems, s.summary.commits⟩,
         loopContext := "Completed item `".data ++ (d.targetItem.getD first.text)
           ++ "`. Commit: ".data ++ "none".data}) := by
  obtain ⟨W, hbw⟩ : ∃ W, buildWorkerPrompt cfg.workerAgent
      (d.targetItem.getD first.text)
      (d.workerPrompt.getD (defaultWorkerTask (d.targetItem.getD first.text))) none
      cfg.workflow.executionTests = some W := ⟨_, rfl⟩
  simp only [runStep, hu]
  rw [if_neg (by simp [hdr])]
  simp only [hl, invokeAgent, parseLoopDecision, hjd]
  simp only [stepBody, hda, hbw, Option.getD_some]
  rw [if_neg (by simp [hdr])]
  simp only [hw, invokeAgent, truncateR_of_le w 240 hwlen]
  have hts : runTestSuite cfg.workflow.executionTests opts.dryRun s.shellOuts
      = ([], s.shellOuts, some ⟨true, "No tests configured.".data⟩) := by
    rw [hte]
    rfl
  simp only [afterWorker, hts]
  simp only [Bool.not_true, Bool.false_and, Bool.false_eq_true, if_false]
  simp only [afterTests, Bool.not_true, Bool.false_eq_true, if_false]
  have hcp : commitPhase cfg opts d (d.targetItem.getD first.text) s.shellOuts
      = ([], s.shellOuts, some none) := by
    simp [commitPhase, hac]
  have hmp : markPhase lc cfg opts (d.targetItem.getD first.text) s.prd
      = ([], s.prd, false) := by
    simp [markPhase, ham]
  simp only [successTail, hcp, hmp]
  simp only [List.nil_append, List.append_nil, Option.getD_none,
    Option.isSome_none, Bool.false_eq_true, if_false, Nat.add_zero]
  simp [List.append_assoc]

/-- Is this event a planner-agent invocation? -/
def isPlannerInvoke : Event → Bool
  | .agentInvoke .planner _ => true
  | _ => false

theorem runLoop_fuel_next (lc : Str → Str) (cfg : Config) (opts : RunOptions)
    (jd : Str → Option LoopDecision) (m n step : Nat) (hm : m = n + 1)
    (s s' : RunState) (e : List Event)
    (h : runStep lc cfg opts jd step s = (e, .next s')) :
    runLoop lc cfg opts jd m step s =
      (e ++ (runLoop lc cfg opts jd n (step + 1) s').1,
       (runLoop lc cfg opts jd n (step + 1) s').2.1,
       (runLoop lc cfg opts jd n (step + 1) s').2.2) := by
  subst hm
  rcases hrl : runLoop lc cfg opts jd n (step + 1) s' with ⟨e2, s2, res⟩
  simp only [runLoop, h, hrl]

/-- C8: (1) any returned summary satisfies the invariants: `iterations` never
exceeds the effective max-iterations bound (the override when present, else
the configured maximum), and `completedItems` and `commits` are each at most
`iterations`; (2) with `maxIterations = 3`, no override, and a planner that
always answers Delegate while the test suite trivially passes (no tests
configured, auto-commit and auto-mark off so the checklist stays unchanged),
the run performs exactly 3 iterations: the planner is invoked three times
and the returned summary is `⟨3, 0, 0⟩`. -/
theorem C8_iteration_bounds :
    (∀ (lc : Str → Str) (cfg : Config) (opts : RunOptions)
      (jd : Str → Option LoopDecision)
      (s : RunState) (tr : List Event) (s' : RunState) (sum : RunSummary),
      run lc cfg opts jd s = (tr, s', some sum) →
      sum.iterations ≤ effectiveMax cfg opts ∧
      sum.completedItems ≤ sum.iterations ∧ sum.commits ≤ sum.iterations) ∧
    (∀ (lc : Str → Str) (cfg : Config) (opts : RunOptions)
      (jd : Str → Option LoopDecision)
      (s : RunState) (first : PrdItem) (us : List PrdItem) (l1 l2 l3 : Str)
      (lrest : List (Option Str)) (d1 d2 d3 : LoopDecision) (w1 w2 w3 : Str)
      (wrest : List (Option Str)),
      opts.dryRun = false →
      opts.maxIterationsOverride = none →
      cfg.workflow.maxIterations = 3 →
      cfg.workflow.executionTests = [] →
      cfg.workflow.autoCommit = false →
      cfg.autoMarkCompleted = false →
      uncheckedItems (parsePrd s.prd) = first :: us →
      s.loopOuts = some l1 :: some l2 :: some l3 :: lrest →
      jd l1 = some d1 → d1.action = .delegate →
      jd l2 = some d2 → d2.action = .delegate →
      jd l3 = some d3 → d3.action = .delegate →
      s.workerOuts = some w1 :: some w2 :: some w3 :: wrest →
      byteLen w1 ≤ 240 → byteLen w2 ≤ 240 → byteLen w3 ≤ 240 →
      (run lc cfg opts jd s).2.2 = some ⟨3, 0, 0⟩ ∧
      ((run lc cfg opts jd s).1.countP fun e => isPlannerInvoke e) = 3 ∧
      (run lc cfg opts jd s).1.length = 6) := by
  constructor
  · intro lc cfg opts jd s tr s' sum heq
    have h := runLoop_inv lc cfg opts jd (effectiveMax cfg opts) 1
      {s with summary := ⟨0, 0, 0⟩, loopContext := []}
      (by simp) (by simp) (by simp) tr s' sum heq
    exact ⟨by omega, h.1, h.2.1⟩
  · intro lc cfg opts jd s first us l1 l2 l3 lrest d1 d2 d3 w1 w2 w3 wrest
      hdr hov hmi hte hac ham hu hl hjd1 hda1 hjd2 hda2 hjd3 hda3 hw hw1 hw2 hw3
    have hstep : ∀ (step : Nat) (st : RunState) (lr : Str)
        (lrs : List (Option Str)) (d : LoopDecision) (w : Str)
        (wrs : List (Option Str)),
        st.prd = s.prd → st.loopOuts = some lr :: lrs →
        st.workerOuts = some w :: wrs →
        jd lr = some d → d.action = .delegate → byteLen w ≤ 240 →
        ∃ p q s', runStep lc cfg opts jd step st
            = ([Event.agentInvoke .planner p, Event.agentInvoke .implementer q],
              .next s') ∧
          s'.prd = s.prd ∧ s'.loopOuts = lrs ∧ s'.workerOuts = wrs ∧
          s'.summary = ⟨step, st.summary.completedItems, st.summary.commits⟩ := by
      intro step st lr lrs d w wrs hprd hlo hwo hj hd hwl
      have hu' : uncheckedItems (parsePrd st.prd) = first :: us := by
        rw [hprd]; exact hu
      have heq := clean_delegate_step lc cfg opts jd step st first us lr lrs d w wrs
        hdr hte hac ham hu' hlo hj hd hwo hwl
      exact ⟨_, _, _, heq, hprd, rfl, rfl, rfl⟩
    obtain ⟨p1, q1, s1, e1, hp1, hlo1, hwo1, hsm1⟩ := hstep 1
      {s with summary := ⟨0, 0, 0⟩, loopContext := []} l1
      (some l2 :: some l3 :: lrest) d1 w1 (some w2 :: some w3 :: wrest)
      rfl hl hw hjd1 hda1 hw1
    obtain ⟨p2, q2, s2, e2, hp2, hlo2, hwo2, hsm2⟩ := hstep (1 + 1) s1 l2
      (some l3 :: lrest) d2 w2 (some w3 :: wrest) hp1 hlo1 hwo1 hjd2 hda2 hw2
    obtain ⟨p3, q3, s3, e3, hp3, hlo3, hwo3, hsm3⟩ := hstep (1 + 1 + 1) s2 l3
      lrest d3 w3 wrest hp2 hlo2 hwo2 hjd3 hda3 hw3
    have hrun0 : run lc cfg opts jd s = runLoop lc cfg opts jd 3 1
        {s with summary := ⟨0, 0, 0⟩, loopContext := []} := by
      show runLoop lc cfg opts jd (effectiveMax cfg opts) 1 _ = _
      rw [show effectiveMax cfg opts = 3 by simp [effectiveMax, hov, hmi]]
    rw [hrun0, runLoop_fuel_next lc cfg opts jd 3 2 1 rfl _ _ _ e1,
      runLoop_fuel_next lc cfg opts jd 2 1 (1 + 1) rfl _ _ _ e2,
      runLoop_fuel_next lc cfg opts jd 1 0 (1 + 1 + 1) rfl _ _ _ e3]
    simp only [runLoop]
    refine ⟨?_, ?_, ?_⟩
    · simp [hsm3, hsm2, hsm1]
    · simp [List.countP_append, List.countP_cons, isPlannerInvoke]
    · simp

/-- Witness for C8 at a concrete configuration: three iterations of an
always-delegating planner over a one-item checklist with no tests, no
auto-commit and no auto-mark return the summary `⟨3, 0, 0⟩`. -/
theorem C8_witness :
    (run asciiLower ⟨"PRD.md".data, false, ⟨3, 2, false, []⟩, ⟨[], [], "L".data⟩,
        ⟨[], [], "W".data⟩⟩
      ⟨none, false⟩
      (fun r => if r = "go".data
        then some ⟨.delegate, some "a".data, some "do it".data, none, none⟩
        else none)
      ⟨"- [ ] a\n".data, [some "go".data, some "go".data, some "go".data],
        [some "ok".data, some "ok".data, some "ok".data], [],
        ⟨0, 0, 0⟩, []⟩).2.2 = some ⟨3, 0, 0⟩ := by
  exact (C8_iteration_bounds.2 _ _ _ _ _ ⟨"a".data, false⟩ [] "go".data "go".data
    "go".data [] ⟨.delegate, some "a".data, some "do it".data, none, none⟩
    ⟨.delegate, some "a".data, some "do it".data, none, none⟩
    ⟨.delegate, some "a".data, some "do it".data, none, none⟩
    "ok".data "ok".data "ok".data [] rfl rfl rfl rfl rfl rfl (by decide) rfl
    (by decide) rfl (by decide) rfl (by decide) rfl rfl
    (by decide) (by decide) (by decide)).1

/-! ## C4: bounded fix-retry policy -/

theorem runTestSuite_single_fail (t o e : Str) (rest : List ShellOut) :
    runTestSuite [t] false (some (false, o, e) :: rest)
      = ([Event.shellRun t], rest, some ⟨false, cmdLabel t (trimL (o ++ e))⟩) := by
  simp [runTestSuite, runTestsGo, runShellPure]

set_option maxRecDepth 32768 in
/-- The failure output embedded in a retry prompt is a substring of it. -/
theorem out_in_fix_prompt (w : AgentCfg) (ti wt out : Str) (ts : List Str)
    (P : Str) (hlen : byteLen out ≤ 3000)
    (hP : buildWorkerPrompt w ti wt (some out) ts = some P) :
    ∃ pre post, pre ++ out ++ post = P := by
  rw [buildWorkerPrompt, failureBlock, truncateR_of_le out 3000 hlen] at hP
  simp only [Option.map_some', Option.some.injEq] at hP
  refine ⟨w.systemPrompt
    ++ "\n\nRole: Implementation agent (slower, stronger model).\nCurrent PRD item:\n".data
    ++ ti ++ "\n\nTask:\n".data ++ wt
    ++ "\n\nYou may focus on these files:\n".data ++ formatLines w.visibleFiles
    ++ "\n\nYou should internally validate against these tests:\n".data
    ++ formatLines w.visibleTests
    ++ "\n\nThe orchestrator will run this test suite after your turn:\n".data
    ++ formatLines ts
    ++ "\n\n".data ++ "Previous test failures to fix first:\n".data,
    "\n".data
    ++ "\nKeep output concise. Include:\n1) What changed\n2) What remains risky\n3) Suggested commit message\n".data,
    ?_⟩
  rw [← hP]
  simp [List.append_assoc]

set_option maxRecDepth 32768 in
/-- C4: with `maxFixAttempts = 2` and an always-failing test suite, a
non-dry iteration executes the test suite exactly 3 times (one initial run
plus two retries), re-invokes the implementer once per retry with the prior
failure output embedded in the retry prompt, and is then abandoned: no git
command runs, the checklist is not rewritten, the counters are unchanged,
and the failure context is handed to the next iteration.  With
`maxFixAttempts = 0` exactly one test run occurs and no retry is attempted. -/
theorem C4_retry_exhaustion :
    (∀ (lc : Str → Str) (cfg : Config) (opts : RunOptions)
      (jd : Str → Option LoopDecision)
      (step : Nat) (s : RunState) (first : PrdItem) (us : List PrdItem)
      (lraw : Str) (lrest : List (Option Str)) (d : LoopDecision) (t : Str)
      (o1 e1 o2 e2 o3 e3 : Str) (shrest : List ShellOut) (w1 w2 w3 : Str)
      (wrest : List (Option Str)),
      opts.dryRun = false →
      cfg.workflow.maxFixAttempts = 2 →
      cfg.workflow.executionTests = [t] →
      uncheckedItems (parsePrd s.prd) = first :: us →
      s.loopOuts = some lraw :: lrest →
      jd lraw = some d → d.action = .delegate →
      s.workerOuts = some w1 :: some w2 :: some w3 :: wrest →
      byteLen w1 ≤ 240 →
      s.shellOuts = some (false, o1, e1) :: some (false, o2, e2)
        :: some (false, o3, e3) :: shrest →
      byteLen (cmdLabel t (trimL (o1 ++ e1))) ≤ 3000 →
      byteLen (cmdLabel t (trimL (o2 ++ e2))) ≤ 3000 →
      ∃ W1 W2 W3,
        runStep lc cfg opts jd step s =
          ([Event.agentInvoke .planner (buildLoopPrompt cfg (parsePrd s.prd)
              s.loopContext cfg.workflow.executionTests),
            Event.agentInvoke .implementer W1, Event.shellRun t,
            Event.agentInvoke .implementer W2, Event.shellRun t,
            Event.agentInvoke .implementer W3, Event.shellRun t],
          .next {s with
            loopOuts := lrest,
            workerOuts := wrest,
            shellOuts := shrest,
            summary := {s.summary with iterations := step},
            loopContext := "Previous attempt failed for item `".data
              ++ (d.targetItem.getD first.text) ++ "`.\nTest output:\n".data
              ++ cmdLabel t (trimL (o3 ++ e3))}) ∧
        (∃ pre post, pre ++ cmdLabel t (trimL (o1 ++ e1)) ++ post = W2) ∧
        (∃ pre post, pre ++ cmdLabel t (trimL (o2 ++ e2)) ++ post = W3)) ∧
    (∀ (lc : Str → Str) (cfg : Config) (opts : RunOptions)
      (jd : Str → Option LoopDecision)
      (step : Nat) (s : RunState) (first : PrdItem) (us : List PrdItem)
      (lraw : Str) (lrest : List (Option Str)) (d : LoopDecision) (t : Str)
      (o1 e1 : Str) (shrest : List ShellOut) (w1 : Str)
      (wrest : List (Option Str)),
      opts.dryRun = false →
      cfg.workflow.maxFixAttempts = 0 →
      cfg.workflow.executionTests = [t] →
      uncheckedItems (parsePrd s.prd) = first :: us →
      s.loopOuts = some lraw :: lrest →
      jd lraw = some d → d.action = .delegate →
      s.workerOuts = some w1 :: wrest →
      byteLen w1 ≤ 240 →
      s.shellOuts = some (false, o1, e1) :: shrest →
      ∃ W1,
        runStep lc cfg opts jd step s =
          ([Event.agentInvoke .planner (buildLoopPrompt cfg (parsePrd s.prd)
              s.loopContext cfg.workflow.executionTests),
            Event.agentInvoke .implementer W1, Event.shellRun t],
          .next {s with
            loopOuts := lrest,
            workerOuts := wrest,
            shellOuts := shrest,
            summary := {s.summary with iterations := step},
            loopContext := "Previous attempt failed for item `".data
              ++ (d.targetItem.getD first.text) ++ "`.\nTest output:\n".data
              ++ cmdLabel t (trimL (o1 ++ e1))})) := by
  constructor
  · intro lc cfg opts jd step s first us lraw lrest d t o1 e1 o2 e2 o3 e3 shrest
      w1 w2 w3 wrest hdr hfa hte hu hl hjd hda hw hw1 hsh hb1 hb2
    obtain ⟨W1, hbw1⟩ : ∃ W, buildWorkerPrompt cfg.workerAgent
        (d.targetItem.getD first.text)
        (d.workerPrompt.getD (defaultWorkerTask (d.targetItem.getD first.text)))
        none cfg.workflow.executionTests = some W := ⟨_, rfl⟩
    obtain ⟨W2, hbw2⟩ : ∃ W, buildWorkerPrompt cfg.workerAgent
        (d.targetItem.getD first.text)
        (d.workerPrompt.getD (defaultWorkerTask (d.targetItem.getD first.text)))
        (some (cmdLabel t (trimL (o1 ++ e1)))) cfg.workflow.executionTests
        = some W :=
      ⟨_, by rw [buildWorkerPrompt, failureBlock,
            truncateR_of_le _ 3000 hb1, Option.map_some', Option.map_some']⟩
    obtain ⟨W3, hbw3⟩ : ∃ W, buildWorkerPrompt cfg.workerAgent
        (d.targetItem.getD first.text)
        (d.workerPrompt.getD (defaultWorkerTask (d.targetItem.getD first.text)))
        (some (cmdLabel t (trimL (o2 ++ e2)))) cfg.workflow.executionTests
        = some W :=
      ⟨_, by rw [buildWorkerPrompt, failureBlock,
            truncateR_of_le _ 3000 hb2, Option.map_some', Option.map_some']⟩
    refine ⟨W1, W2, W3, ?_,
      out_in_fix_prompt _ _ _ _ _ _ hb1 hbw2,
      out_in_fix_prompt _ _ _ _ _ _ hb2 hbw3⟩
    rw [hte] at hbw1 hbw2 hbw3
    simp only [runStep, hu]
    rw [if_neg (by simp [hdr])]
    simp only [hl, invokeAgent, parseLoopDecision, hjd]
    simp only [hte, stepBody, hda, hbw1, Option.getD_some]
    rw [if_neg (by simp [hdr])]
    simp only [hw, invokeAgent, truncateR_of_le w1 240 hw1]
    simp only [afterWorker, hte, hdr, hsh, runTestSuite_single_fail]
    simp only [Bool.not_false, Bool.and_self, if_true]
    have hfa' : cfg.workflow.maxFixAttempts = 0 + 1 + 1 := hfa
    rw [hfa']
    simp only [fixAttempts, hte, hbw2, invokeAgent, runTestSuite_single_fail,
      Bool.false_eq_true, if_false, hbw3]
    simp only [afterTests, Bool.not_false, if_true]
    simp [List.append_assoc]
  · intro lc cfg opts jd step s first us lraw lrest d t o1 e1 shrest w1 wrest
      hdr hfa hte hu hl hjd hda hw hw1 hsh
    obtain ⟨W1, hbw1⟩ : ∃ W, buildWorkerPrompt cfg.workerAgent
        (d.targetItem.getD first.text)
        (d.workerPrompt.getD (defaultWorkerTask (d.targetItem.getD first.text)))
        none cfg.workflow.executionTests = some W := ⟨_, rfl⟩
    refine ⟨W1, ?_⟩
    rw [hte] at hbw1
    simp only [runStep, hu]
    rw [if_neg (by simp [hdr])]
    simp only [hl, invokeAgent, parseLoopDecision, hjd]
    simp only [hte, stepBody, hda, hbw1, Option.getD_some]
    rw [if_neg (by simp [hdr])]
    simp only [hw, invokeAgent, truncateR_of_le w1 240 hw1]
    simp only [afterWorker, hte, hdr, hsh, runTestSuite_single_fail]
    simp only [Bool.not_false, Bool.and_self, if_true]
    rw [hfa]
    simp only [fixAttempts]
    simp only [afterTests, Bool.not_false, if_true]
    simp [List.append_assoc]

/-- Witness for C4 at a concrete configuration: with one test command that
fails three times, the iteration performs exactly three test executions and
three implementer invocations, and hands the third failure output to the
next iteration without any git command or checklist write. -/
theorem C4_witness :
    ∃ W1 W2 W3,
      runStep asciiLower
        ⟨"PRD.md".data, true, ⟨5, 2, true, ["t".data]⟩, ⟨[], [], "L".data⟩,
          ⟨[], [], "W".data⟩⟩
        ⟨none, false⟩
        (fun r => if r = "go".data
          then some ⟨.delegate, some "a".data, some "do".data, none, none⟩
          else none)
        1
        ⟨"- [ ] a\n".data, [some "go".data],
          [some "ok".data, some "ok".data, some "ok".data],
          [some (false, "x".data, []), some (false, "y".data, []),
            some (false, "z".data, [])], ⟨0, 0, 0⟩, []⟩ =
        ([Event.agentInvoke .planner (buildLoopPrompt
            ⟨"PRD.md".data, true, ⟨5, 2, true, ["t".data]⟩, ⟨[], [], "L".data⟩,
              ⟨[], [], "W".data⟩⟩
            (parsePrd "- [ ] a\n".data) [] ["t".data]),
          Event.agentInvoke .implementer W1, Event.shellRun "t".data,
          Event.agentInvoke .implementer W2, Event.shellRun "t".data,
          Event.agentInvoke .implementer W3, Event.shellRun "t".data],
        .next ⟨"- [ ] a\n".data, [], [], [], ⟨1, 0, 0⟩,
          "Previous attempt failed for item `".data ++ "a".data
            ++ "`.\nTest output:\n".data
            ++ cmdLabel "t".data (trimL ("z".data ++ []))⟩) ∧
      (∃ pre post, pre ++ cmdLabel "t".data (trimL ("x".data ++ [])) ++ post = W2) ∧
      (∃ pre post, pre ++ cmdLabel "t".data (trimL ("y".data ++ [])) ++ post = W3) := by
  exact C4_retry_exhaustion.1 _ _ _ _ 1 _ ⟨"a".data, false⟩ [] "go".data []
    ⟨.delegate, some "a".data, some "do".data, none, none⟩ "t".data
    "x".data [] "y".data [] "z".data [] [] "ok".data "ok".data "ok".data []
    rfl rfl rfl (by decide) rfl (by decide) rfl rfl (by decide) rfl
    (by decide) (by decide)

end Laun
